import Mathlib

/-!
Verification of the X12 EDI codec specification.

The codec (delimiter probe, tokenizer, envelope tree builder, validator and
marshaller) is embedded shallowly: byte streams are `List Char`, fallible
operations return `Except X12Error`.  The repository ships the codec's tests
and an example driver; the codec functions themselves (`Decode`, `Marshal`,
`Validate`) are modelled from the specification, as recorded in the doc
comment of each such definition.
-/

namespace X12

/-- Modelled from the spec: the error kinds of section 7 of the spec
(the repository source for the error type itself is not included; only its
tests are).  Reader errors are out of scope of the shallow embedding. -/
inductive X12Error where
  | Empty
  | MalformedISA
  | MalformedEnvelope
  | UnexpectedSegment
  | TrailingSegments
  | UnexpectedEOF
deriving DecidableEq, Repr

/-- Modelled from the spec: the delimiter record discovered by the probe. -/
structure Delimiters where
  elementSeparator : Char
  subElementSeparator : Char
  segmentTerminator : Char
  repetitionSeparator : Char
deriving DecidableEq, Repr

/-- An element of a generic segment, as in the test file's `x12.Element`. -/
structure Element where
  ID : List Char
  Value : List Char
  Components : List (List Char)
deriving DecidableEq, Repr

/-- A generic segment, as in the test file's `x12.Segment`. -/
structure Segment where
  ID : List Char
  Elements : List Element
deriving DecidableEq, Repr

/-- The interchange header record, fields as in the test file's `x12.ISA`. -/
structure ISA where
  AuthorizationInfoQualifier : List Char
  AuthorizationInformation : List Char
  SecurityInfoQualifier : List Char
  SecurityInfo : List Char
  InterchangeSenderIDQualifier : List Char
  InterchangeSenderID : List Char
  InterchangeReceiverIDQualifier : List Char
  InterchangeReceiverID : List Char
  InterchangeDate : List Char
  InterchangeTime : List Char
  InterchangeControlStandardsID : List Char
  InterchangeControlVersion : List Char
  InterchangeControlNumber : List Char
  AcknowledgmentRequested : List Char
  UsageIndicator : List Char
  ComponentElementSeparator : List Char
deriving DecidableEq, Repr

/-- The functional group header record, fields as in the test file's `x12.GS`. -/
structure GS where
  FunctionalIDCode : List Char
  ApplicationSenderCode : List Char
  ApplicationReceiverCode : List Char
  Date : List Char
  Time : List Char
  GroupControlNumber : List Char
  ResponsibleAgencyCode : List Char
  VersionReleaseIndustryID : List Char
deriving DecidableEq, Repr

/-- The transaction header record, fields as in the test file's `x12.ST`. -/
structure ST where
  TransactionSetIDCode : List Char
  TransactionSetControlNumber : List Char
  ImplementationConventionReference : List Char
deriving DecidableEq, Repr

/-- The transaction trailer record, fields as in the test file's `x12.SE`. -/
structure SE where
  NumberOfIncludedSegments : List Char
  TransactionSetControlNumber : List Char
deriving DecidableEq, Repr

/-- The functional group trailer record, fields as in the test file's `x12.GE`. -/
structure GE where
  NumberOfIncludedTransactionSets : List Char
  GroupControlNumber : List Char
deriving DecidableEq, Repr

/-- The interchange trailer record, fields as in the test file's `x12.IEA`. -/
structure IEA where
  NumberOfIncludedFunctionalGroups : List Char
  InterchangeControlNumber : List Char
deriving DecidableEq, Repr

/-- A transaction set, as in the test file's `x12.Transaction`. -/
structure Transaction where
  Header : ST
  Segments : List Segment
  Trailer : SE
deriving DecidableEq, Repr

/-- A functional group, as in the test file's `x12.FunctionGroup`. -/
structure FunctionGroup where
  Header : GS
  Transactions : List Transaction
  Trailer : GE
deriving DecidableEq, Repr

/-- The interchange envelope, as in the test file's `x12.Interchange`. -/
structure Interchange where
  Header : ISA
  FunctionGroups : List FunctionGroup
  Trailer : IEA
deriving DecidableEq, Repr

/-- The decoded document, as in the test file's `x12.X12Document`.  Modelled
from the spec: per section 4.5 and the design notes, the data model carries
the delimiter set discovered by the probe so the marshaller can reproduce it. -/
structure X12Document where
  Interchange : Interchange
  Delimiters : Delimiters
deriving DecidableEq, Repr

/-! ### The delimiter probe -/

/-- The sixteen ISA fields assembled into the typed record, when exactly
sixteen are present. -/
def fields16 : List (List Char) → Option ISA
  | [f1, f2, f3, f4, f5, f6, f7, f8, f9, f10, f11, f12, f13, f14, f15, f16] =>
    some ⟨f1, f2, f3, f4, f5, f6, f7, f8, f9, f10, f11, f12, f13, f14, f15, f16⟩
  | _ => none

/-- Modelled from the spec: the fixed-width body of the delimiter probe,
applied to the stream from the separator position on.  The head byte defines
the element separator; the following 101 content bytes hold the 16 fields,
the last content byte (absolute byte 104 in strict mode) being the
sub-element separator; the next byte (absolute 105) is the segment
terminator; content byte 78 (absolute 82) is the repetition separator.
Fails with MalformedISA when fewer than 103 bytes are available or the
content does not split into exactly 16 fields. -/
def probeCore (rest0 : List Char) : Except X12Error (Delimiters × ISA × List Char) :=
  if rest0.length < 103 then .error .MalformedISA else
  match fields16 (((rest0.drop 1).take 101).splitOn (rest0.headD ' ')) with
  | some isa =>
    .ok (⟨rest0.headD ' ', ((rest0.drop 1).take 101).getD 100 ' ',
          ((rest0.drop 1).drop 101).headD ' ',
          ((rest0.drop 1).take 101).getD 78 ' '⟩, isa,
         ((rest0.drop 1).drop 101).drop 1)
  | none => .error .MalformedISA

/-- Modelled from the spec: the delimiter probe of section 4.1 (its source is
not under src/).  It requires the literal prefix ISA; in relaxed mode it
skips a run of spaces after the prefix before reading the fixed-width body. -/
def probe (relaxed : Bool) (b : List Char) :
    Except X12Error (Delimiters × ISA × List Char) :=
  if b.take 3 ≠ ['I', 'S', 'A'] then .error .MalformedISA else
  probeCore (b.drop (3 +
    (if relaxed then ((b.drop 3).takeWhile (fun c => c == ' ')).length else 0)))

/-! ### The tokenizer -/

/-- Whitespace as accepted after the final segment terminator. -/
def isWS (c : Char) : Bool :=
  c == ' ' || c == '\t' || c == '\n' || c == '\r'

/-- Modelled from the spec: the tokenizer trims a single optional newline
(either a bare line feed or a carriage return plus line feed) immediately
after each segment terminator. -/
def dropNL (l : List Char) : List Char :=
  if l.head? = some '\n' then l.tail
  else if l.head? = some '\r' ∧ l.tail.head? = some '\n' then l.tail.tail
  else l

/-- Modelled from the spec: the tokenizer of section 4.2 (its source is not
under src/).  The stream after the ISA segment is split at the segment
terminator; each piece follows a terminator, so each piece has one optional
leading newline trimmed.  The piece after the final terminator must be
whitespace (it is ignored), otherwise the stream ended mid-segment. -/
def tokenize (term : Char) (rest : List Char) : Except X12Error (List (List Char)) :=
  if ((((rest.splitOn term).map dropNL).getLastD []).all isWS) then
    .ok (((rest.splitOn term).map dropNL).dropLast)
  else .error .UnexpectedEOF

/-- Two-digit positional element id 01, 02, ... -/
def posId (n : Nat) : List Char :=
  if n < 10 then '0' :: Nat.toDigits 10 n else Nat.toDigits 10 n

/-- Modelled from the spec: a tokenized field becomes an `Element`; if the
field contains the sub-element separator it is split into components and the
value is left empty. -/
def mkElement (dl : Delimiters) (idx : Nat) (tok : List Char) : Element :=
  match tok.splitOn dl.subElementSeparator with
  | [_] => ⟨posId idx, tok, []⟩
  | comps => ⟨posId idx, [], comps⟩

/-- Elements from the fields of a segment, numbered from `idx`. -/
def mkElements (dl : Delimiters) (idx : Nat) : List (List Char) → List Element
  | [] => []
  | t :: ts => mkElement dl idx t :: mkElements dl (idx + 1) ts

/-- Modelled from the spec: a segment payload splits at the element separator;
the first field is the segment id, the rest are positional elements. -/
def toSegment (dl : Delimiters) (chunk : List Char) : Segment :=
  match chunk.splitOn dl.elementSeparator with
  | [] => ⟨[], []⟩
  | id :: toks => ⟨id, mkElements dl 1 toks⟩

/-! ### The tree builder -/

/-- The element values of a segment, in order. -/
def values (s : Segment) : List (List Char) :=
  s.Elements.map (fun e => e.Value)

/-- Modelled from the spec: positional parse of a GS segment; a wrong number
of fields is a malformed envelope. -/
def parseGS (s : Segment) : Except X12Error GS :=
  match values s with
  | [a, b, c, d, e, f, g, h] => .ok ⟨a, b, c, d, e, f, g, h⟩
  | _ => .error .MalformedEnvelope

/-- Modelled from the spec: positional parse of an ST segment; the
implementation convention reference is optional. -/
def parseST (s : Segment) : Except X12Error ST :=
  match values s with
  | [a, b] => .ok ⟨a, b, []⟩
  | [a, b, c] => .ok ⟨a, b, c⟩
  | _ => .error .MalformedEnvelope

/-- Modelled from the spec: positional parse of an SE segment. -/
def parseSE (s : Segment) : Except X12Error SE :=
  match values s with
  | [a, b] => .ok ⟨a, b⟩
  | _ => .error .MalformedEnvelope

/-- Modelled from the spec: positional parse of a GE segment. -/
def parseGE (s : Segment) : Except X12Error GE :=
  match values s with
  | [a, b] => .ok ⟨a, b⟩
  | _ => .error .MalformedEnvelope

/-- Modelled from the spec: positional parse of an IEA segment. -/
def parseIEA (s : Segment) : Except X12Error IEA :=
  match values s with
  | [a, b] => .ok ⟨a, b⟩
  | _ => .error .MalformedEnvelope

/-- The envelope segment ids that may not appear as ordinary segments inside
a transaction. -/
def isEnvelopeID (id : List Char) : Bool :=
  id == ['I', 'S', 'A'] || id == ['G', 'S'] || id == ['S', 'T'] ||
  id == ['S', 'E'] || id == ['G', 'E'] || id == ['I', 'E', 'A']

/-- Modelled from the spec: the states of the envelope pushdown automaton of
section 4.3, carrying the partially assembled tree.  The ISA itself is
consumed by the probe, so building starts inside the interchange. -/
inductive BState where
  | insideISA (groups : List FunctionGroup)
  | insideGS (groups : List FunctionGroup) (gs : GS) (txns : List Transaction)
  | insideST (groups : List FunctionGroup) (gs : GS) (txns : List Transaction)
      (st : ST) (segs : List Segment)
  | afterIEA (groups : List FunctionGroup) (iea : IEA)
deriving DecidableEq, Repr

/-- Modelled from the spec: one transition of the envelope state machine
(the transition table of section 4.3). -/
def step (st : BState) (seg : Segment) : Except X12Error BState :=
  match st with
  | .insideISA groups =>
    if seg.ID = ['G', 'S'] then
      (parseGS seg).map fun gs => .insideGS groups gs []
    else if seg.ID = ['I', 'E', 'A'] then
      (parseIEA seg).map fun iea => .afterIEA groups iea
    else .error .UnexpectedSegment
  | .insideGS groups gs txns =>
    if seg.ID = ['S', 'T'] then
      (parseST seg).map fun stH => .insideST groups gs txns stH []
    else if seg.ID = ['G', 'E'] then
      (parseGE seg).map fun ge => .insideISA (groups ++ [⟨gs, txns, ge⟩])
    else .error .UnexpectedSegment
  | .insideST groups gs txns stH segs =>
    if seg.ID = ['S', 'E'] then
      (parseSE seg).map fun se => .insideGS groups gs (txns ++ [⟨stH, segs, se⟩])
    else if isEnvelopeID seg.ID then .error .UnexpectedSegment
    else .ok (.insideST groups gs txns stH (segs ++ [seg]))
  | .afterIEA _ _ => .error .TrailingSegments

/-- Run the state machine over a list of segments. -/
def runSteps (st : BState) : List Segment → Except X12Error BState
  | [] => .ok st
  | s :: ss => (step st s).bind fun st2 => runSteps st2 ss

/-- Modelled from the spec: end of stream is valid only after the IEA
segment; anywhere else the stream ended mid-envelope. -/
def finalize (dl : Delimiters) (isa : ISA) (st : BState) :
    Except X12Error X12Document :=
  match st with
  | .afterIEA groups iea => .ok ⟨⟨isa, groups, iea⟩, dl⟩
  | _ => .error .UnexpectedEOF

/-- Modelled from the spec: the tree builder consumes the tokenized segment
chunks and produces the document. -/
def build (dl : Delimiters) (isa : ISA) (chunks : List (List Char)) :
    Except X12Error X12Document :=
  (runSteps (.insideISA []) (chunks.map (toSegment dl))).bind (finalize dl isa)

/-- Modelled from the spec: `Decode` (section 6).  The empty input is the
`Empty` error; otherwise the probe discovers the delimiters and the ISA, the
tokenizer splits the remainder into segment chunks, and the builder assembles
the document.  The only decode option a claim needs is the relaxed segment id
whitespace flag. -/
def Decode (relaxed : Bool) (b : List Char) : Except X12Error X12Document :=
  if b = [] then .error .Empty else
  (probe relaxed b).bind fun pr =>
    (tokenize pr.1.segmentTerminator pr.2.2).bind fun chunks =>
      build pr.1 pr.2.1 chunks

/-! ### The marshaller -/

/-- Join pieces with a single separator character between them. -/
def joinSep (sep : Char) (l : List (List Char)) : List Char :=
  [sep].intercalate l

/-- Modelled from the spec: an element renders as its value, or as its
components joined by the sub-element separator when components are present. -/
def renderElement (dl : Delimiters) (e : Element) : List Char :=
  match e.Components with
  | [] => e.Value
  | comps => joinSep dl.subElementSeparator comps

/-- Modelled from the spec: a generic segment renders as its id and elements
joined by the element separator (without the terminator). -/
def renderSegmentText (dl : Delimiters) (s : Segment) : List Char :=
  joinSep dl.elementSeparator (s.ID :: s.Elements.map (renderElement dl))

/-- The sixteen ISA fields in order. -/
def isaFields (i : ISA) : List (List Char) :=
  [i.AuthorizationInfoQualifier, i.AuthorizationInformation,
   i.SecurityInfoQualifier, i.SecurityInfo,
   i.InterchangeSenderIDQualifier, i.InterchangeSenderID,
   i.InterchangeReceiverIDQualifier, i.InterchangeReceiverID,
   i.InterchangeDate, i.InterchangeTime,
   i.InterchangeControlStandardsID, i.InterchangeControlVersion,
   i.InterchangeControlNumber, i.AcknowledgmentRequested,
   i.UsageIndicator, i.ComponentElementSeparator]

/-- The sixteen ISA fields joined by the element separator. -/
def isaContent (dl : Delimiters) (i : ISA) : List Char :=
  joinSep dl.elementSeparator (isaFields i)

/-- The ISA segment text (without the terminator). -/
def isaText (dl : Delimiters) (i : ISA) : List Char :=
  joinSep dl.elementSeparator (['I', 'S', 'A'] :: isaFields i)

/-- The GS segment text (without the terminator). -/
def gsText (dl : Delimiters) (g : GS) : List Char :=
  joinSep dl.elementSeparator
    [['G', 'S'], g.FunctionalIDCode, g.ApplicationSenderCode,
     g.ApplicationReceiverCode, g.Date, g.Time, g.GroupControlNumber,
     g.ResponsibleAgencyCode, g.VersionReleaseIndustryID]

/-- The ST segment text; the optional implementation convention reference is
emitted only when present. -/
def stText (dl : Delimiters) (s : ST) : List Char :=
  joinSep dl.elementSeparator
    (if s.ImplementationConventionReference = [] then
       [['S', 'T'], s.TransactionSetIDCode, s.TransactionSetControlNumber]
     else
       [['S', 'T'], s.TransactionSetIDCode, s.TransactionSetControlNumber,
        s.ImplementationConventionReference])

/-- The SE segment text (without the terminator). -/
def seText (dl : Delimiters) (s : SE) : List Char :=
  joinSep dl.elementSeparator
    [['S', 'E'], s.NumberOfIncludedSegments, s.TransactionSetControlNumber]

/-- The GE segment text (without the terminator). -/
def geText (dl : Delimiters) (g : GE) : List Char :=
  joinSep dl.elementSeparator
    [['G', 'E'], g.NumberOfIncludedTransactionSets, g.GroupControlNumber]

/-- The IEA segment text (without the terminator). -/
def ieaText (dl : Delimiters) (i : IEA) : List Char :=
  joinSep dl.elementSeparator
    [['I', 'E', 'A'], i.NumberOfIncludedFunctionalGroups,
     i.InterchangeControlNumber]

/-- The segment texts of a transaction: ST, the inner segments, SE. -/
def txnTexts (dl : Delimiters) (t : Transaction) : List (List Char) :=
  stText dl t.Header ::
    (t.Segments.map (renderSegmentText dl) ++ [seText dl t.Trailer])

/-- The segment texts of a functional group: GS, its transactions, GE. -/
def groupTexts (dl : Delimiters) (g : FunctionGroup) : List (List Char) :=
  gsText dl g.Header ::
    ((g.Transactions.map (txnTexts dl)).flatten ++ [geText dl g.Trailer])

/-- The segment texts of a whole document, in emission order. -/
def docTexts (doc : X12Document) : List (List Char) :=
  isaText doc.Delimiters doc.Interchange.Header ::
    ((doc.Interchange.FunctionGroups.map (groupTexts doc.Delimiters)).flatten ++
     [ieaText doc.Delimiters doc.Interchange.Trailer])

/-- The marshaller options, as in the test file's `x12.Marshaler`. -/
structure Marshaler where
  NewLines : Bool
deriving DecidableEq, Repr

/-- Modelled from the spec: `Marshal` (sections 4.5 and 6) emits every
segment text followed by the segment terminator, and with the NewLines
option a line feed after each terminator.  The delimiters are the ones the
document carries. -/
def Marshaler.Marshal (m : Marshaler) (doc : X12Document) : List Char :=
  ((docTexts doc).map fun t =>
    t ++ doc.Delimiters.segmentTerminator ::
      (if m.NewLines then ['\n'] else [])).flatten

/-! ### The validator -/

/-- A violation found by the validator: the path to the offending envelope,
the invariant number of section 3 of the spec, and the expected and observed
values. -/
structure Violation where
  Path : List Char
  Invariant : Nat
  Expected : List Char
  Observed : List Char
deriving DecidableEq, Repr

/-- Decimal digit value. -/
def digitVal (c : Char) : Option Nat :=
  if '0' ≤ c ∧ c ≤ '9' then some (c.toNat - '0'.toNat) else none

/-- Parse a decimal natural number; empty or non-numeric text parses to
nothing, mirroring the standard library string-to-integer behaviour. -/
def parseNat (l : List Char) : Option Nat :=
  if l = [] then none
  else l.foldl (fun acc c => acc.bind fun n => (digitVal c).map fun d => n * 10 + d)
    (some 0)

/-- Decimal digits of a natural number. -/
def natToChars (n : Nat) : List Char :=
  Nat.toDigits 10 n

/-- A control-number comparison: header and trailer values must agree as
text. -/
def checkEq (path : List Char) (inv : Nat) (expected observed : List Char) :
    List Violation :=
  if expected = observed then [] else [⟨path, inv, expected, observed⟩]

/-- A count comparison: the stored text must parse to the observed count;
non-numeric text is also a violation. -/
def checkCount (path : List Char) (inv : Nat) (stored : List Char)
    (actual : Nat) : List Violation :=
  if parseNat stored = some actual then []
  else [⟨path, inv, natToChars actual, stored⟩]

/-- The path of the transaction at position `j` in the group at `i`. -/
def txnPath (i j : Nat) : List Char :=
  "function_groups[".toList ++ natToChars i ++ "].transactions[".toList ++
    natToChars j ++ "]".toList

/-- The path of the group at position `i`. -/
def groupPath (i : Nat) : List Char :=
  "function_groups[".toList ++ natToChars i ++ "]".toList

/-- Modelled from the spec: invariants 5 and 6 for one transaction. -/
def validateTxn (i j : Nat) (t : Transaction) : List Violation :=
  checkEq (txnPath i j) 5 t.Header.TransactionSetControlNumber
      t.Trailer.TransactionSetControlNumber ++
  checkCount (txnPath i j) 6 t.Trailer.NumberOfIncludedSegments
      (2 + t.Segments.length)

/-- The transaction checks of group `i`, numbering transactions from `j`. -/
def validateTxns (i j : Nat) : List Transaction → List Violation
  | [] => []
  | t :: ts => validateTxn i j t ++ validateTxns i (j + 1) ts

/-- Modelled from the spec: invariants 2 and 4 for one functional group,
plus the per-transaction invariants. -/
def validateGroup (i : Nat) (g : FunctionGroup) : List Violation :=
  checkEq (groupPath i) 2 g.Header.GroupControlNumber
      g.Trailer.GroupControlNumber ++
  checkCount (groupPath i) 4 g.Trailer.NumberOfIncludedTransactionSets
      g.Transactions.length ++
  validateTxns i 0 g.Transactions

/-- The group checks, numbering groups from `i`. -/
def validateGroups (i : Nat) : List FunctionGroup → List Violation
  | [] => []
  | g :: gs => validateGroup i g ++ validateGroups (i + 1) gs

/-- Modelled from the spec: `Validate` (sections 4.4 and 6) accumulates all
violations of invariants 1 to 6 and returns the empty list on a valid
document. -/
def Validate (doc : X12Document) : List Violation :=
  checkEq "interchange".toList 1
      doc.Interchange.Header.InterchangeControlNumber
      doc.Interchange.Trailer.InterchangeControlNumber ++
  checkCount "interchange".toList 3
      doc.Interchange.Trailer.NumberOfIncludedFunctionalGroups
      doc.Interchange.FunctionGroups.length ++
  validateGroups 0 doc.Interchange.FunctionGroups

/-- Remove every line feed, as the round-trip test does with its
newline-stripped comparison. -/
def stripNewlines (b : List Char) : List Char :=
  b.filter fun c => !(c == '\n')

end X12

deriving instance DecidableEq for Except

namespace X12

/-! ### Concrete inputs from the test file -/

/-- The canonical eleven-segment 824 example of the first decode test. -/
def canonicalInput : List Char := String.toList
  ("ISA*00*          *00*          *08*9254110060     *ZZ*123456789      *041216*0805*U*00501*000095071*0*P*>~\n" ++
   "GS*AG*5137624388*123456789*20041216*0805*95071*X*005010~\n" ++
   "ST*824*021390001*005010X186A1~\n" ++
   "BGN*11*FFA.ABCDEF.123456*20020709*0932**123456789**WQ~\n" ++
   "N1*41*ABC INSURANCE*46*111111111~\n" ++
   "PER*IC*JOHN JOHNSON*TE*8005551212*EX*1439~\n" ++
   "N1*40*SMITHCO*46*A1234~\n" ++
   "OTI*TA*TN*NA***20020709*0902*2*0001*834*005010X220A1~\n" ++
   "SE*7*021390001~\n" ++
   "GE*1*95071~\n" ++
   "IEA*1*000095071~")

/-- The second decode test input: the ISA segment ends with the usage
indicator, lacking its sixteenth field. -/
def isaMissingInput : List Char := String.toList
  ("ISA*00*          *00*          *08*9254110060     *ZZ*123456789      *041216*0805*U*00501*000095071*0*P~\n" ++
   "GS*AG*5137624388*123456789*20041216*0805*95071*X*005010~\n" ++
   "ST*824*021390001*005010X186A1~\n" ++
   "BGN*11*FFA.ABCDEF.123456*20020709*0932**123456789**WQ~\n" ++
   "N1*41*ABC INSURANCE*46*111111111~\n" ++
   "PER*IC*JOHN JOHNSON*TE*8005551212*EX*1439~\n" ++
   "N1*40*SMITHCO*46*A1234~\n" ++
   "OTI*TA*TN*NA***20020709*0902*2*0001*834*005010X220A1~\n" ++
   "SE*7*021390001~\n" ++
   "GE*1*95071~\n" ++
   "IEA*1*000095071~")

/-- Shorthand for a simple element with a value and no components. -/
def el (id v : String) : Element := ⟨id.toList, v.toList, []⟩

/-- The document the first decode test expects for the canonical input,
with the probed delimiter set attached. -/
def canonicalDoc : X12Document :=
  ⟨⟨⟨"00".toList, "          ".toList, "00".toList, "          ".toList,
     "08".toList, "9254110060     ".toList, "ZZ".toList, "123456789      ".toList,
     "041216".toList, "0805".toList, "U".toList, "00501".toList,
     "000095071".toList, "0".toList, "P".toList, ">".toList⟩,
    [⟨⟨"AG".toList, "5137624388".toList, "123456789".toList, "20041216".toList,
       "0805".toList, "95071".toList, "X".toList, "005010".toList⟩,
      [⟨⟨"824".toList, "021390001".toList, "005010X186A1".toList⟩,
        [⟨"BGN".toList,
          [el "01" "11", el "02" "FFA.ABCDEF.123456", el "03" "20020709",
           el "04" "0932", el "05" "", el "06" "123456789", el "07" "",
           el "08" "WQ"]⟩,
         ⟨"N1".toList,
          [el "01" "41", el "02" "ABC INSURANCE", el "03" "46",
           el "04" "111111111"]⟩,
         ⟨"PER".toList,
          [el "01" "IC", el "02" "JOHN JOHNSON", el "03" "TE",
           el "04" "8005551212", el "05" "EX", el "06" "1439"]⟩,
         ⟨"N1".toList,
          [el "01" "40", el "02" "SMITHCO", el "03" "46", el "04" "A1234"]⟩,
         ⟨"OTI".toList,
          [el "01" "TA", el "02" "TN", el "03" "NA", el "04" "", el "05" "",
           el "06" "20020709", el "07" "0902", el "08" "2", el "09" "0001",
           el "10" "834", el "11" "005010X220A1"]⟩],
        ⟨"7".toList, "021390001".toList⟩⟩],
      ⟨"1".toList, "95071".toList⟩⟩],
    ⟨"1".toList, "000095071".toList⟩⟩,
   ⟨'*', '>', '~', 'U'⟩⟩

/-! ### Well-formedness of an input stream

The round-trip law of the spec quantifies over well-formed inputs (no
extraneous line breaks).  `WF` makes that precise: the strict probe
succeeds; no carriage returns; no line feed inside the fixed-width ISA
prefix; after the ISA, a line feed occurs only as the single optional
newline directly after a segment terminator, and only whitespace the
marshaller is not required to reproduce is an optional final newline;
envelope segments carry no component separators (their fields are simple)
and an ST segment does not carry an empty third field (the marshaller emits
the optional field only when present). -/

/-- Whether one tokenized chunk is reproducible by the marshaller: envelope
chunks must not hide data in components, and a present implementation
convention reference must be nonempty. -/
def chunkOK (dl : Delimiters) (chunk : List Char) : Bool :=
  (if isEnvelopeID (toSegment dl chunk).ID then
     chunk.all fun c => !(c == dl.subElementSeparator)
   else true) &&
  (if (toSegment dl chunk).ID = ['S', 'T'] then
     match values (toSegment dl chunk) with
     | [_, _, c] => !c.isEmpty
     | _ => true
   else true)

/-- The decidable well-formedness predicate on input streams described
above. -/
def WF (b : List Char) : Bool :=
  match probe false b with
  | .error _ => false
  | .ok (dl, _, rest) =>
    (b.all fun c => !(c == '\r')) &&
    ((b.take 106).all fun c => !(c == '\n')) &&
    (let parts := rest.splitOn dl.segmentTerminator
     (decide (parts.getLastD [] = []) || decide (parts.getLastD [] = ['\n'])) &&
     parts.dropLast.all fun p =>
       ((dropNL p).all fun c => !(c == '\n')) && chunkOK dl (dropNL p))

/-- Whether the input has a line feed after every segment terminator,
including the last. -/
def hasNLAfterEachTerm (b : List Char) : Bool :=
  match probe false b with
  | .error _ => false
  | .ok (dl, _, rest) =>
    let parts := rest.splitOn dl.segmentTerminator
    decide (parts.getLastD [] = ['\n']) &&
    parts.dropLast.all fun p => decide (p.head? = some '\n')

/-- Whether no generic segment of the document renders to a chunk that the
tokenizer would trim (that is, no segment id begins with a newline). -/
def segsNLClean (doc : X12Document) : Bool :=
  doc.Interchange.FunctionGroups.all fun g =>
    g.Transactions.all fun t =>
      t.Segments.all fun s =>
        decide (dropNL (renderSegmentText doc.Delimiters s) =
                renderSegmentText doc.Delimiters s)

/-- Overwrite the number-of-included-segments count in the SE trailer of the
first transaction of the first functional group. -/
def setSE (doc : X12Document) (v : List Char) : X12Document :=
  match doc with
  | ⟨⟨isa, groups, iea⟩, dl⟩ =>
    match groups with
    | [] => ⟨⟨isa, [], iea⟩, dl⟩
    | ⟨gs, txns, ge⟩ :: gtail =>
      match txns with
      | [] => ⟨⟨isa, ⟨gs, [], ge⟩ :: gtail, iea⟩, dl⟩
      | ⟨stH, segs, se⟩ :: ttail =>
        ⟨⟨isa, ⟨gs, ⟨stH, segs, ⟨v, se.TransactionSetControlNumber⟩⟩ :: ttail,
           ge⟩ :: gtail, iea⟩, dl⟩

/-- Collapse the run of spaces that the relaxed probe skips after the ISA
segment id, as the round-trip test's transformer does. -/
def collapseISASpace (b : List Char) : List Char :=
  match b with
  | 'I' :: 'S' :: 'A' :: rest => 'I' :: 'S' :: 'A' :: rest.dropWhile (fun c => c == ' ')
  | _ => b

/-! ### Further concrete inputs for the end-to-end scenarios -/

/-- The canonical input with a final newline: a line feed follows every
segment terminator. -/
def nlCanonicalInput : List Char := canonicalInput ++ ['\n']

/-- Scenario S3: the canonical input with the SE count changed to 9. -/
def s3Input : List Char := String.toList
  ("ISA*00*          *00*          *08*9254110060     *ZZ*123456789      *041216*0805*U*00501*000095071*0*P*>~\n" ++
   "GS*AG*5137624388*123456789*20041216*0805*95071*X*005010~\n" ++
   "ST*824*021390001*005010X186A1~\n" ++
   "BGN*11*FFA.ABCDEF.123456*20020709*0932**123456789**WQ~\n" ++
   "N1*41*ABC INSURANCE*46*111111111~\n" ++
   "PER*IC*JOHN JOHNSON*TE*8005551212*EX*1439~\n" ++
   "N1*40*SMITHCO*46*A1234~\n" ++
   "OTI*TA*TN*NA***20020709*0902*2*0001*834*005010X220A1~\n" ++
   "SE*9*021390001~\n" ++
   "GE*1*95071~\n" ++
   "IEA*1*000095071~")

/-- The document scenario S3 decodes to: the canonical document with the SE
count set to 9. -/
def s3Doc : X12Document := setSE canonicalDoc "9".toList

/-- Scenario S4: the canonical input with the IEA control number changed. -/
def s4Input : List Char := String.toList
  ("ISA*00*          *00*          *08*9254110060     *ZZ*123456789      *041216*0805*U*00501*000095071*0*P*>~\n" ++
   "GS*AG*5137624388*123456789*20041216*0805*95071*X*005010~\n" ++
   "ST*824*021390001*005010X186A1~\n" ++
   "BGN*11*FFA.ABCDEF.123456*20020709*0932**123456789**WQ~\n" ++
   "N1*41*ABC INSURANCE*46*111111111~\n" ++
   "PER*IC*JOHN JOHNSON*TE*8005551212*EX*1439~\n" ++
   "N1*40*SMITHCO*46*A1234~\n" ++
   "OTI*TA*TN*NA***20020709*0902*2*0001*834*005010X220A1~\n" ++
   "SE*7*021390001~\n" ++
   "GE*1*95071~\n" ++
   "IEA*1*000095072~")

/-- The document scenario S4 decodes to: the canonical document with the IEA
control number 000095072. -/
def s4Doc : X12Document :=
  ⟨⟨canonicalDoc.Interchange.Header, canonicalDoc.Interchange.FunctionGroups,
    ⟨"1".toList, "000095072".toList⟩⟩, canonicalDoc.Delimiters⟩

/-- Scenario S5: the canonical input with a space between the ISA segment id
and the first element separator. -/
def spacedInput : List Char := "ISA ".toList ++ canonicalInput.drop 3

/-- The canonical input with a blank line between the ST and BGN segments:
it still decodes, but the first inner segment id starts with a newline. -/
def doubleNLInput : List Char := String.toList
  ("ISA*00*          *00*          *08*9254110060     *ZZ*123456789      *041216*0805*U*00501*000095071*0*P*>~\n" ++
   "GS*AG*5137624388*123456789*20041216*0805*95071*X*005010~\n" ++
   "ST*824*021390001*005010X186A1~\n" ++
   "\n" ++
   "BGN*11*FFA.ABCDEF.123456*20020709*0932**123456789**WQ~\n" ++
   "N1*41*ABC INSURANCE*46*111111111~\n" ++
   "PER*IC*JOHN JOHNSON*TE*8005551212*EX*1439~\n" ++
   "N1*40*SMITHCO*46*A1234~\n" ++
   "OTI*TA*TN*NA***20020709*0902*2*0001*834*005010X220A1~\n" ++
   "SE*7*021390001~\n" ++
   "GE*1*95071~\n" ++
   "IEA*1*000095071~")

/-- The document `doubleNLInput` decodes to: the canonical document except
that the BGN segment id carries a leading newline. -/
def doubleNLDoc : X12Document :=
  match canonicalDoc with
  | ⟨⟨isa, gps, iea⟩, dl⟩ =>
    match gps with
    | [⟨gs, txns, ge⟩] =>
      match txns with
      | [⟨stH, sgs, se⟩] =>
        match sgs with
        | s1 :: srest =>
          ⟨⟨isa, [⟨gs, [⟨stH, (⟨'\n' :: s1.ID, s1.Elements⟩ : Segment) :: srest,
             se⟩], ge⟩], iea⟩, dl⟩
        | [] => canonicalDoc
      | _ => canonicalDoc
    | _ => canonicalDoc

/-- The OTI segment chunk of the canonical input, with its two consecutive
empty fields at positions 04 and 05. -/
def otiChunk : List Char :=
  "OTI*TA*TN*NA***20020709*0902*2*0001*834*005010X220A1".toList

/-- A minimal interchange header: all fields blank except the control
number. -/
def tinyISA : ISA :=
  ⟨[], [], [], [], [], [], [], [], [], [], [], [], "1".toList, [], [], []⟩

/-- A minimal functional group header with control number 1. -/
def tinyGS : GS := ⟨[], [], [], [], [], "1".toList, [], []⟩

/-- A minimal transaction header with control number 1. -/
def tinyST : ST := ⟨[], "1".toList, []⟩

/-- A minimal transaction trailer: two segments (ST and SE alone), control
number 1. -/
def tinySE : SE := ⟨"2".toList, "1".toList⟩

/-- A minimal functional group trailer: one transaction, control number 1. -/
def tinyGE : GE := ⟨"1".toList, "1".toList⟩

/-- A minimal interchange trailer: one group, control number 1. -/
def tinyIEA : IEA := ⟨"1".toList, "1".toList⟩

/-- The canonical delimiter set. -/
def tinyDl : Delimiters := ⟨'*', '>', '~', 'U'⟩

/-- A minimal document that passes validation: one group, one transaction,
no inner segments, all control numbers and counts consistent. -/
def tinyDoc : X12Document :=
  ⟨⟨tinyISA, [⟨tinyGS, [⟨tinyST, [], tinySE⟩], tinyGE⟩], tinyIEA⟩, tinyDl⟩

/-! ### Re-decode invariants

A decoded document carries enough structure that marshalling and decoding
again restores it.  The following predicates state, per entity, that its
rendered text tokenizes and parses back to itself and holds no segment
terminator. -/

/-- The eight GS fields in order. -/
def gsFields (g : GS) : List (List Char) :=
  [g.FunctionalIDCode, g.ApplicationSenderCode, g.ApplicationReceiverCode,
   g.Date, g.Time, g.GroupControlNumber, g.ResponsibleAgencyCode,
   g.VersionReleaseIndustryID]

/-- The ST fields in order, with the optional third field only when
present. -/
def stFields (s : ST) : List (List Char) :=
  if s.ImplementationConventionReference = [] then
    [s.TransactionSetIDCode, s.TransactionSetControlNumber]
  else
    [s.TransactionSetIDCode, s.TransactionSetControlNumber,
     s.ImplementationConventionReference]

/-- The two SE fields in order. -/
def seFields (s : SE) : List (List Char) :=
  [s.NumberOfIncludedSegments, s.TransactionSetControlNumber]

/-- The two GE fields in order. -/
def geFields (g : GE) : List (List Char) :=
  [g.NumberOfIncludedTransactionSets, g.GroupControlNumber]

/-- The two IEA fields in order. -/
def ieaFields (i : IEA) : List (List Char) :=
  [i.NumberOfIncludedFunctionalGroups, i.InterchangeControlNumber]

/-- A generic segment whose rendering tokenizes back to itself. -/
def SegRT (dl : Delimiters) (s : Segment) : Prop :=
  toSegment dl (renderSegmentText dl s) = s ∧
  dl.segmentTerminator ∉ renderSegmentText dl s ∧
  isEnvelopeID s.ID = false

/-- A GS record whose rendering tokenizes and parses back to itself. -/
def GSRT (dl : Delimiters) (g : GS) : Prop :=
  (toSegment dl (gsText dl g)).ID = ['G', 'S'] ∧
  parseGS (toSegment dl (gsText dl g)) = .ok g ∧
  dl.segmentTerminator ∉ gsText dl g

/-- An ST record whose rendering tokenizes and parses back to itself. -/
def STRT (dl : Delimiters) (s : ST) : Prop :=
  (toSegment dl (stText dl s)).ID = ['S', 'T'] ∧
  parseST (toSegment dl (stText dl s)) = .ok s ∧
  dl.segmentTerminator ∉ stText dl s

/-- An SE record whose rendering tokenizes and parses back to itself. -/
def SERT (dl : Delimiters) (s : SE) : Prop :=
  (toSegment dl (seText dl s)).ID = ['S', 'E'] ∧
  parseSE (toSegment dl (seText dl s)) = .ok s ∧
  dl.segmentTerminator ∉ seText dl s

/-- A GE record whose rendering tokenizes and parses back to itself. -/
def GERT (dl : Delimiters) (g : GE) : Prop :=
  (toSegment dl (geText dl g)).ID = ['G', 'E'] ∧
  parseGE (toSegment dl (geText dl g)) = .ok g ∧
  dl.segmentTerminator ∉ geText dl g

/-- An IEA record whose rendering tokenizes and parses back to itself. -/
def IEART (dl : Delimiters) (i : IEA) : Prop :=
  (toSegment dl (ieaText dl i)).ID = ['I', 'E', 'A'] ∧
  parseIEA (toSegment dl (ieaText dl i)) = .ok i ∧
  dl.segmentTerminator ∉ ieaText dl i

/-- A transaction all of whose parts re-decode. -/
def TxnRT (dl : Delimiters) (t : Transaction) : Prop :=
  STRT dl t.Header ∧ (∀ s ∈ t.Segments, SegRT dl s) ∧ SERT dl t.Trailer

/-- A functional group all of whose parts re-decode. -/
def GroupRT (dl : Delimiters) (g : FunctionGroup) : Prop :=
  GSRT dl g.Header ∧ (∀ t ∈ g.Transactions, TxnRT dl t) ∧ GERT dl g.Trailer

/-- The builder-state invariant: everything accumulated so far re-decodes. -/
def StClean (dl : Delimiters) : BState → Prop
  | .insideISA groups => ∀ g ∈ groups, GroupRT dl g
  | .insideGS groups gs txns =>
      (∀ g ∈ groups, GroupRT dl g) ∧ GSRT dl gs ∧ ∀ t ∈ txns, TxnRT dl t
  | .insideST groups gs txns stH segs =>
      (∀ g ∈ groups, GroupRT dl g) ∧ GSRT dl gs ∧ (∀ t ∈ txns, TxnRT dl t) ∧
      STRT dl stH ∧ ∀ s ∈ segs, SegRT dl s
  | .afterIEA groups iea =>
      (∀ g ∈ groups, GroupRT dl g) ∧ IEART dl iea

/-! ### Basic facts about splitting and joining -/

theorem splitOn_ne_nil (sep : Char) (l : List Char) : l.splitOn sep ≠ [] :=
  List.splitOnP_ne_nil _ l

theorem joinSep_nil (sep : Char) : joinSep sep [] = [] := rfl

theorem joinSep_single (sep : Char) (a : List Char) : joinSep sep [a] = a := by
  simp [joinSep, List.intercalate]

theorem joinSep_cons_cons (sep : Char) (a b : List Char) (t : List (List Char)) :
    joinSep sep (a :: b :: t) = a ++ sep :: joinSep sep (b :: t) := by
  simp [joinSep, List.intercalate, List.intersperse_cons_cons]

theorem joinSep_splitOn (sep : Char) (l : List Char) :
    joinSep sep (l.splitOn sep) = l := by
  simp only [joinSep]
  exact List.intercalate_splitOn l sep

theorem splitOnP_sat (p : Char → Bool) :
    ∀ (l : List Char), ∀ q ∈ l.splitOnP p, ∀ x ∈ q, p x = false := by
  intro l
  induction l with
  | nil =>
    intro q hq x hx
    rw [List.splitOnP_nil] at hq
    simp only [List.mem_singleton] at hq
    subst hq
    simp at hx
  | cons c t ih =>
    intro q hq x hx
    rw [List.splitOnP_cons] at hq
    by_cases hc : p c
    · rw [if_pos hc] at hq
      rcases List.mem_cons.mp hq with h | h
      · subst h; simp at hx
      · exact ih q h x hx
    · rw [if_neg hc] at hq
      rcases hsp : t.splitOnP p with _ | ⟨h0, t0⟩
      · exact absurd hsp (List.splitOnP_ne_nil p t)
      · rw [hsp] at hq
        simp only [List.modifyHead_cons] at hq
        rcases List.mem_cons.mp hq with h | h
        · subst h
          rcases List.mem_cons.mp hx with hx | hx
          · subst hx; exact Bool.eq_false_iff.mpr hc
          · exact ih h0 (by rw [hsp]; exact List.mem_cons_self _ _) x hx
        · exact ih q (by rw [hsp]; exact List.mem_cons_of_mem _ h) x hx

theorem not_mem_splitOn {sep : Char} {l q : List Char}
    (hq : q ∈ l.splitOn sep) : sep ∉ q := by
  intro hx
  have h := splitOnP_sat (fun c => c == sep) l q hq sep hx
  simp at h

theorem mem_of_mem_splitOnP (p : Char → Bool) :
    ∀ (l : List Char), ∀ q ∈ l.splitOnP p, ∀ x ∈ q, x ∈ l := by
  intro l
  induction l with
  | nil =>
    intro q hq x hx
    rw [List.splitOnP_nil] at hq
    simp only [List.mem_singleton] at hq
    subst hq
    simp at hx
  | cons c t ih =>
    intro q hq x hx
    rw [List.splitOnP_cons] at hq
    by_cases hc : p c
    · rw [if_pos hc] at hq
      rcases List.mem_cons.mp hq with h | h
      · subst h; simp at hx
      · exact List.mem_cons_of_mem _ (ih q h x hx)
    · rw [if_neg hc] at hq
      rcases hsp : t.splitOnP p with _ | ⟨h0, t0⟩
      · exact absurd hsp (List.splitOnP_ne_nil p t)
      · rw [hsp] at hq
        simp only [List.modifyHead_cons] at hq
        rcases List.mem_cons.mp hq with h | h
        · subst h
          rcases List.mem_cons.mp hx with hx | hx
          · subst hx; exact List.mem_cons_self _ _
          · exact List.mem_cons_of_mem _
              (ih h0 (by rw [hsp]; exact List.mem_cons_self _ _) x hx)
        · exact List.mem_cons_of_mem _
            (ih q (by rw [hsp]; exact List.mem_cons_of_mem _ h) x hx)

theorem mem_of_mem_splitOn {sep : Char} {l q : List Char} {x : Char}
    (hq : q ∈ l.splitOn sep) (hx : x ∈ q) : x ∈ l :=
  mem_of_mem_splitOnP (fun c => c == sep) l q hq x hx

theorem length_splitOnP (p : Char → Bool) :
    ∀ (l : List Char), (l.splitOnP p).length = l.countP p + 1 := by
  intro l
  induction l with
  | nil => simp [List.splitOnP_nil]
  | cons c t ih =>
    rw [List.splitOnP_cons]
    by_cases hc : p c
    · rw [if_pos hc, List.length_cons, ih, List.countP_cons, if_pos hc]
    · rw [if_neg hc, List.length_modifyHead, ih, List.countP_cons, if_neg hc]

theorem splitOn_append_sep {sep : Char} {c : List Char} (hc : sep ∉ c)
    (r : List Char) : (c ++ sep :: r).splitOn sep = c :: r.splitOn sep := by
  apply List.splitOnP_first
  · intro x hx
    simp only [beq_iff_eq]
    intro h
    exact hc (h ▸ hx)
  · simp

theorem splitOn_flatten (sep : Char) :
    ∀ (cs : List (List Char)), (∀ c ∈ cs, sep ∉ c) →
      ((cs.map (fun c => c ++ [sep])).flatten).splitOn sep = cs ++ [[]] := by
  intro cs
  induction cs with
  | nil => simp
  | cons c t ih =>
    intro h
    rw [List.map_cons, List.flatten_cons, List.append_assoc, List.singleton_append,
      splitOn_append_sep (h c (List.mem_cons_self _ _)),
      ih (fun x hx => h x (List.mem_cons_of_mem _ hx)), List.cons_append]

theorem joinSep_cons_of_ne_nil (sep : Char) (a : List Char)
    {t : List (List Char)} (h : t ≠ []) :
    joinSep sep (a :: t) = a ++ sep :: joinSep sep t := by
  cases t with
  | nil => exact absurd rfl h
  | cons b t2 => exact joinSep_cons_cons sep a b t2

/-! ### Facts about newline trimming and stripping -/

theorem dropNL_nil : dropNL [] = [] := rfl

theorem dropNL_cons_nl (r : List Char) : dropNL ('\n' :: r) = r := by
  simp [dropNL]

theorem dropNL_eq_self {l : List Char} (h1 : l.head? ≠ some '\n')
    (h2 : '\r' ∉ l) : dropNL l = l := by
  unfold dropNL
  rw [if_neg h1, if_neg]
  rintro ⟨hr, -⟩
  cases l with
  | nil => simp at hr
  | cons c t =>
    simp only [List.head?_cons, Option.some.injEq] at hr
    exact h2 (hr ▸ List.mem_cons_self _ _)

theorem mem_of_mem_dropNL {l : List Char} {x : Char} (h : x ∈ dropNL l) :
    x ∈ l := by
  unfold dropNL at h
  split at h
  · exact List.mem_of_mem_tail h
  · split at h
    · exact List.mem_of_mem_tail (List.mem_of_mem_tail h)
    · exact h

theorem strip_append (a b : List Char) :
    stripNewlines (a ++ b) = stripNewlines a ++ stripNewlines b := by
  simp [stripNewlines]

theorem strip_cons_ne {c : Char} (h : c ≠ '\n') (l : List Char) :
    stripNewlines (c :: l) = c :: stripNewlines l := by
  simp [stripNewlines, h]

theorem strip_cons_nl (l : List Char) :
    stripNewlines ('\n' :: l) = stripNewlines l := by
  simp [stripNewlines]

theorem strip_eq_self {l : List Char} (h : '\n' ∉ l) : stripNewlines l = l := by
  rw [stripNewlines, List.filter_eq_self]
  intro a ha
  have hne : a ≠ '\n' := fun e => h (e ▸ ha)
  simp [hne]

theorem strip_eq_dropNL {p : List Char} (hr : '\r' ∉ p)
    (hn : '\n' ∉ dropNL p) : stripNewlines p = dropNL p := by
  cases p with
  | nil => rfl
  | cons c t =>
    by_cases hc : c = '\n'
    · subst hc
      rw [dropNL_cons_nl] at hn ⊢
      rw [strip_cons_nl, strip_eq_self hn]
    · have hd : dropNL (c :: t) = c :: t := by
        apply dropNL_eq_self
        · simp [hc]
        · exact hr
      rw [hd] at hn ⊢
      exact strip_eq_self hn

theorem getLastD_irrel {l : List (List Char)} (h : l ≠ []) (x y : List Char) :
    l.getLastD x = l.getLastD y := by
  rw [List.getLastD_eq_getLast?, List.getLastD_eq_getLast?]
  obtain ⟨v, hv⟩ := Option.isSome_iff_exists.mp (List.getLast?_isSome.mpr h)
  rw [hv]
  rfl

/-- Stripping newlines from terminator-joined parts yields the trimmed
chunks, each followed by the terminator. -/
theorem strip_joinSep (term : Char) (hterm : term ≠ '\n') :
    ∀ (parts : List (List Char)), parts ≠ [] →
      (parts.getLastD [] = [] ∨ parts.getLastD [] = ['\n']) →
      (∀ p ∈ parts.dropLast, '\r' ∉ p ∧ '\n' ∉ dropNL p) →
      stripNewlines (joinSep term parts) =
        ((parts.dropLast.map dropNL).map (fun c => c ++ [term])).flatten := by
  intro parts
  induction parts with
  | nil => intro h; exact absurd rfl h
  | cons p t ih =>
    intro _ hlast hmid
    cases t with
    | nil =>
      simp only [List.dropLast_single, List.map_nil, List.flatten_nil]
      rw [joinSep_single]
      have hx : ([p] : List (List Char)).getLastD [] = p := by
        rw [List.getLastD_eq_getLast?]
        rfl
      rw [hx] at hlast
      rcases hlast with h | h <;> subst h
      · rfl
      · rfl
    | cons q t2 =>
      rw [joinSep_cons_of_ne_nil term p (by simp)]
      rw [strip_append, strip_cons_ne hterm]
      have hmem : p ∈ (p :: q :: t2).dropLast := by
        rw [List.dropLast_cons₂]
        exact List.mem_cons_self _ _
      have hp := hmid p hmem
      have hlast2 : (q :: t2).getLastD [] = [] ∨ (q :: t2).getLastD [] = ['\n'] := by
        have heq : (p :: q :: t2).getLastD [] = (q :: t2).getLastD [] := by
          rw [List.getLastD_cons]
          exact getLastD_irrel (by simp) p []
        rw [heq] at hlast
        exact hlast
      have hmid2 : ∀ x ∈ (q :: t2).dropLast, '\r' ∉ x ∧ '\n' ∉ dropNL x := by
        intro x hx
        apply hmid
        rw [List.dropLast_cons₂]
        exact List.mem_cons_of_mem _ hx
      rw [ih (by simp) hlast2 hmid2, strip_eq_dropNL hp.1 hp.2]
      rw [List.dropLast_cons₂, List.map_cons, List.map_cons, List.flatten_cons]
      simp [List.append_assoc]

/-- Joining parts in which a line feed follows every terminator. -/
theorem joinSep_nlsched (term : Char) :
    ∀ (chunks : List (List Char)),
      joinSep term ((chunks.map (fun c => '\n' :: c)) ++ [['\n']]) =
        '\n' :: ((chunks.map (fun c => c ++ [term, '\n'])).flatten) := by
  intro chunks
  induction chunks with
  | nil => simp [joinSep_single]
  | cons c t ih =>
    rw [List.map_cons, List.cons_append,
      joinSep_cons_of_ne_nil term _ (by simp), ih]
    simp

/-! ### Tokenizer characterization -/

theorem tokenize_eq_ok {term : Char} {rest : List Char} {chunks : List (List Char)}
    (h : tokenize term rest = .ok chunks) :
    chunks = ((rest.splitOn term).map dropNL).dropLast ∧
    (((rest.splitOn term).map dropNL).getLastD []).all isWS = true := by
  unfold tokenize at h
  split at h
  · refine ⟨?_, by assumption⟩
    cases h
    rfl
  · exact absurd h (by simp)

theorem tokenize_render (term : Char) (cs : List (List Char))
    (h1 : ∀ c ∈ cs, term ∉ c) (h2 : ∀ c ∈ cs, dropNL c = c) :
    tokenize term ((cs.map (fun c => c ++ [term])).flatten) = .ok cs := by
  unfold tokenize
  rw [splitOn_flatten term cs h1]
  have hmap : (cs ++ [([] : List Char)]).map dropNL = cs ++ [[]] := by
    rw [List.map_append]
    congr 1
    exact (List.map_congr_left h2).trans (List.map_id' cs)
  rw [hmap]
  have hlast : ((cs ++ [([] : List Char)]).getLastD []) = [] := by
    rw [List.getLastD_eq_getLast?, List.getLast?_concat]
    rfl
  rw [hlast]
  simp [List.dropLast_concat]

/-! ### Segment rendering is inverse to tokenizing -/

theorem renderElement_mkElement (dl : Delimiters) (i : Nat) (t : List Char) :
    renderElement dl (mkElement dl i t) = t := by
  rcases h : t.splitOn dl.subElementSeparator with _ | ⟨x, xs⟩
  · exact absurd h (splitOn_ne_nil _ _)
  · cases xs with
    | nil =>
      simp [mkElement, h, renderElement]
    | cons y ys =>
      simp only [mkElement, h, renderElement]
      rw [← h]
      exact joinSep_splitOn _ _

theorem map_render_mkElements (dl : Delimiters) :
    ∀ (toks : List (List Char)) (i : Nat),
      (mkElements dl i toks).map (renderElement dl) = toks := by
  intro toks
  induction toks with
  | nil => intro i; rfl
  | cons t ts ih =>
    intro i
    rw [mkElements, List.map_cons, renderElement_mkElement, ih]

theorem renderSegmentText_toSegment (dl : Delimiters) (chunk : List Char) :
    renderSegmentText dl (toSegment dl chunk) = chunk := by
  rcases h : chunk.splitOn dl.elementSeparator with _ | ⟨id, toks⟩
  · exact absurd h (splitOn_ne_nil _ _)
  · simp only [toSegment, h, renderSegmentText]
    rw [map_render_mkElements, ← h]
    exact joinSep_splitOn _ _

theorem toSegment_renderSegmentText {dl : Delimiters} {chunk : List Char}
    {s : Segment} (h : toSegment dl chunk = s) :
    toSegment dl (renderSegmentText dl s) = s := by
  rw [← h, renderSegmentText_toSegment]

/-! ### Probe characterization -/

theorem fields16_eq_some {l : List (List Char)} {isa : ISA}
    (h : fields16 l = some isa) : l = isaFields isa := by
  unfold fields16 at h
  split at h
  · cases h; rfl
  · cases h

theorem fields16_isaFields (isa : ISA) : fields16 (isaFields isa) = some isa := rfl

theorem headD_cons_self {l : List Char} (h : l ≠ []) :
    l = l.headD ' ' :: l.tail := by
  cases l with
  | nil => exact absurd rfl h
  | cons c t => rfl

theorem probeCore_ok {rest0 : List Char} {dl : Delimiters} {isa : ISA}
    {rest : List Char} (h : probeCore rest0 = .ok (dl, isa, rest)) :
    103 ≤ rest0.length ∧
    dl = ⟨rest0.headD ' ', ((rest0.drop 1).take 101).getD 100 ' ',
          ((rest0.drop 1).drop 101).headD ' ',
          ((rest0.drop 1).take 101).getD 78 ' '⟩ ∧
    ((rest0.drop 1).take 101).splitOn (rest0.headD ' ') = isaFields isa ∧
    rest = ((rest0.drop 1).drop 101).drop 1 := by
  unfold probeCore at h
  split at h
  · exact absurd h (by simp)
  · rename_i hlen
    split at h
    · rename_i isa0 heq
      cases h
      exact ⟨by omega, rfl, fields16_eq_some heq, rfl⟩
    · exact absurd h (by simp)

theorem probeCore_ok_decomp {rest0 : List Char} {dl : Delimiters} {isa : ISA}
    {rest : List Char} (h : probeCore rest0 = .ok (dl, isa, rest)) :
    rest0 = dl.elementSeparator :: (isaContent dl isa ++ dl.segmentTerminator :: rest) ∧
    (isaContent dl isa).length = 101 := by
  obtain ⟨hlen, hdl, hsplit, hrest⟩ := probeCore_ok h
  have hsep : dl.elementSeparator = rest0.headD ' ' := by rw [hdl]
  have hterm : dl.segmentTerminator = ((rest0.drop 1).drop 101).headD ' ' := by rw [hdl]
  have hcontent : isaContent dl isa = (rest0.drop 1).take 101 := by
    unfold isaContent
    rw [← hsplit, ← hsep, joinSep_splitOn]
  have hclen : ((rest0.drop 1).take 101).length = 101 := by
    rw [List.length_take, List.length_drop]
    omega
  refine ⟨?_, by rw [hcontent]; exact hclen⟩
  have h0 : rest0 ≠ [] := by
    intro e
    rw [e] at hlen
    simp at hlen
  have hafter : ((rest0.drop 1).drop 101) ≠ [] := by
    intro e
    have := congrArg List.length e
    rw [List.length_drop, List.length_drop] at this
    simp at this
    omega
  calc rest0 = rest0.headD ' ' :: rest0.tail := headD_cons_self h0
    _ = rest0.headD ' ' :: rest0.drop 1 := by rw [List.drop_one]
    _ = rest0.headD ' ' :: ((rest0.drop 1).take 101 ++ (rest0.drop 1).drop 101) := by
        rw [List.take_append_drop]
    _ = rest0.headD ' ' :: ((rest0.drop 1).take 101 ++
          (((rest0.drop 1).drop 101).headD ' ' :: ((rest0.drop 1).drop 101).tail)) := by
        rw [← headD_cons_self hafter]
    _ = dl.elementSeparator :: (isaContent dl isa ++ dl.segmentTerminator :: rest) := by
        rw [hsep, hterm, hcontent, hrest]
        simp [List.drop_one]

theorem probeCore_render {dl : Delimiters} {isa : ISA}
    (hlen : (isaContent dl isa).length = 101)
    (hsplit : (isaContent dl isa).splitOn dl.elementSeparator = isaFields isa)
    (hsub : dl.subElementSeparator = (isaContent dl isa).getD 100 ' ')
    (hrep : dl.repetitionSeparator = (isaContent dl isa).getD 78 ' ')
    (t : List Char) :
    probeCore (dl.elementSeparator ::
        (isaContent dl isa ++ dl.segmentTerminator :: t)) = .ok (dl, isa, t) := by
  unfold probeCore
  have hlen2 : (dl.elementSeparator ::
      (isaContent dl isa ++ dl.segmentTerminator :: t)).length = 103 + t.length := by
    simp [hlen]
    omega
  rw [if_neg (by omega)]
  have hdrop1 : (dl.elementSeparator ::
      (isaContent dl isa ++ dl.segmentTerminator :: t)).drop 1 =
      isaContent dl isa ++ dl.segmentTerminator :: t := rfl
  rw [hdrop1]
  have htake : (isaContent dl isa ++ dl.segmentTerminator :: t).take 101 =
      isaContent dl isa := by
    rw [← hlen]
    exact List.take_left _ _
  have hdrop : (isaContent dl isa ++ dl.segmentTerminator :: t).drop 101 =
      dl.segmentTerminator :: t := by
    rw [← hlen]
    exact List.drop_left _ _
  rw [htake, hdrop]
  have hhead : (dl.elementSeparator ::
      (isaContent dl isa ++ dl.segmentTerminator :: t)).headD ' ' =
      dl.elementSeparator := rfl
  rw [hhead, hsplit, fields16_isaFields]
  rw [← hsub, ← hrep]
  rfl

theorem isaFields_ne_nil (isa : ISA) : isaFields isa ≠ [] := by
  simp [isaFields]

theorem isaText_eq (dl : Delimiters) (isa : ISA) :
    isaText dl isa =
      'I' :: 'S' :: 'A' :: (dl.elementSeparator :: isaContent dl isa) := by
  unfold isaText isaContent
  rw [joinSep_cons_of_ne_nil _ _ (isaFields_ne_nil isa)]
  rfl

theorem probe_ok_parts {r : Bool} {b : List Char} {dl : Delimiters} {isa : ISA}
    {rest : List Char} (h : probe r b = .ok (dl, isa, rest)) :
    b.take 3 = ['I', 'S', 'A'] ∧
    probeCore (b.drop (3 +
      (if r then ((b.drop 3).takeWhile (fun c => c == ' ')).length else 0))) =
      .ok (dl, isa, rest) := by
  unfold probe at h
  split at h
  · exact absurd h (by simp)
  · rename_i hpre
    exact ⟨not_not.mp hpre, h⟩

theorem probe_ok_content {r : Bool} {b : List Char} {dl : Delimiters} {isa : ISA}
    {rest : List Char} (h : probe r b = .ok (dl, isa, rest)) :
    (isaContent dl isa).length = 101 ∧
    (isaContent dl isa).splitOn dl.elementSeparator = isaFields isa ∧
    dl.subElementSeparator = (isaContent dl isa).getD 100 ' ' ∧
    dl.repetitionSeparator = (isaContent dl isa).getD 78 ' ' := by
  obtain ⟨-, hcore⟩ := probe_ok_parts h
  obtain ⟨hlen, hdl, hsplit, hrest⟩ := probeCore_ok hcore
  obtain ⟨hdecomp, h101⟩ := probeCore_ok_decomp hcore
  set rest0 := b.drop (3 +
    (if r then ((b.drop 3).takeWhile (fun c => c == ' ')).length else 0)) with hr0
  have hsep : dl.elementSeparator = rest0.headD ' ' := by rw [hdl]
  have hcontent : isaContent dl isa = (rest0.drop 1).take 101 := by
    unfold isaContent
    rw [← hsplit, ← hsep, joinSep_splitOn]
  refine ⟨h101, ?_, ?_, ?_⟩
  · rw [hcontent, hsep, hsplit]
  · rw [hcontent, hdl]
  · rw [hcontent, hdl]

theorem probe_false_eq (b : List Char) :
    probe false b = (if b.take 3 ≠ ['I', 'S', 'A'] then .error .MalformedISA
      else probeCore (b.drop 3)) := by
  unfold probe
  simp

theorem probe_ok_render {r : Bool} {b : List Char} {dl : Delimiters} {isa : ISA}
    {rest : List Char} (h : probe r b = .ok (dl, isa, rest)) (t : List Char) :
    probe false (isaText dl isa ++ dl.segmentTerminator :: t) = .ok (dl, isa, t) := by
  obtain ⟨h101, hsplit, hsub, hrep⟩ := probe_ok_content h
  rw [probe_false_eq, isaText_eq]
  rw [if_neg (by simp)]
  exact probeCore_render h101 hsplit hsub hrep t

theorem probe_false_ok_decomp {b : List Char} {dl : Delimiters} {isa : ISA}
    {rest : List Char} (h : probe false b = .ok (dl, isa, rest)) :
    b = isaText dl isa ++ dl.segmentTerminator :: rest ∧
    (isaText dl isa).length = 105 := by
  have hb := h
  rw [probe_false_eq] at hb
  have hpre : b.take 3 = ['I', 'S', 'A'] := by
    by_contra hc
    rw [if_pos hc] at hb
    exact absurd hb (by simp)
  rw [if_neg (not_not_intro hpre)] at hb
  obtain ⟨hdecomp, h101⟩ := probeCore_ok_decomp hb
  constructor
  · calc b = b.take 3 ++ b.drop 3 := (List.take_append_drop 3 b).symm
      _ = ['I', 'S', 'A'] ++ b.drop 3 := by rw [hpre]
      _ = ['I', 'S', 'A'] ++
          (dl.elementSeparator :: (isaContent dl isa ++ dl.segmentTerminator :: rest)) := by
          rw [← hdecomp]
      _ = isaText dl isa ++ dl.segmentTerminator :: rest := by
          rw [isaText_eq]
          simp
  · rw [isaText_eq]
    simp [h101]

/-! ### Envelope parsing inverse lemmas -/

theorem exceptMap_ok {α β : Type} {x : Except X12Error α} {f : α → β} {y : β}
    (h : x.map f = .ok y) : ∃ a, x = .ok a ∧ y = f a := by
  cases x with
  | error e => simp [Except.map] at h
  | ok a =>
    refine ⟨a, rfl, ?_⟩
    simp only [Except.map] at h
    cases h
    rfl

theorem splitOn_eq_single {sep : Char} {t : List Char} (h : sep ∉ t) :
    t.splitOn sep = [t] := by
  apply List.splitOnP_eq_single
  intro x hx
  simp only [beq_iff_eq]
  intro e
  exact h (e ▸ hx)

theorem map_value_mkElements (dl : Delimiters) :
    ∀ (toks : List (List Char)) (i : Nat),
      (∀ t ∈ toks, dl.subElementSeparator ∉ t) →
      (mkElements dl i toks).map (fun e => e.Value) = toks := by
  intro toks
  induction toks with
  | nil => intro i _; rfl
  | cons t ts ih =>
    intro i h
    rw [mkElements, List.map_cons]
    rw [mkElement, splitOn_eq_single (h t (List.mem_cons_self _ _))]
    rw [ih (i + 1) (fun x hx => h x (List.mem_cons_of_mem _ hx))]

theorem toSegment_split {dl : Delimiters} {chunk : List Char} :
    ∀ {id : List Char} {toks : List (List Char)},
      chunk.splitOn dl.elementSeparator = id :: toks →
      toSegment dl chunk = ⟨id, mkElements dl 1 toks⟩ := by
  intro id toks h
  simp [toSegment, h]

theorem chunkOK_no_sub {dl : Delimiters} {c : List Char}
    (hOK : chunkOK dl c = true)
    (hid : isEnvelopeID (toSegment dl c).ID = true) :
    ∀ x ∈ c, x ≠ dl.subElementSeparator := by
  unfold chunkOK at hOK
  rw [Bool.and_eq_true] at hOK
  have h1 := hOK.1
  rw [if_pos hid] at h1
  intro x hx e
  have hx2 := List.all_eq_true.mp h1 x hx
  simp [e] at hx2

theorem chunkOK_st3 {dl : Delimiters} {c : List Char}
    (hOK : chunkOK dl c = true)
    (hid : (toSegment dl c).ID = ['S', 'T'])
    {a b v3 : List Char} (hv : values (toSegment dl c) = [a, b, v3]) :
    v3 ≠ [] := by
  unfold chunkOK at hOK
  rw [Bool.and_eq_true] at hOK
  have h2 := hOK.2
  rw [if_pos hid, hv] at h2
  simpa using h2

/-- The element values of an envelope chunk are exactly its fields past the
segment id, when the chunk holds no component separator. -/
theorem values_of_toSegment {dl : Delimiters} {c : List Char}
    {id : List Char} {toks : List (List Char)}
    (hsp : c.splitOn dl.elementSeparator = id :: toks)
    (hsub : ∀ x ∈ c, x ≠ dl.subElementSeparator) :
    values (toSegment dl c) = toks := by
  rw [toSegment_split hsp]
  unfold values
  simp only []
  apply map_value_mkElements
  intro t ht hx
  exact hsub dl.subElementSeparator
    (mem_of_mem_splitOn (by rw [hsp]; exact List.mem_cons_of_mem _ ht) hx) rfl

theorem gsText_of_parse {dl : Delimiters} {c : List Char} {gs : GS}
    (hOK : chunkOK dl c = true)
    (hid : (toSegment dl c).ID = ['G', 'S'])
    (hp : parseGS (toSegment dl c) = .ok gs) :
    gsText dl gs = c := by
  rcases hsp : c.splitOn dl.elementSeparator with _ | ⟨id, toks⟩
  · exact absurd hsp (splitOn_ne_nil _ _)
  · have hideq : id = ['G', 'S'] := by
      rw [toSegment_split hsp] at hid
      exact hid
    have hsub : ∀ x ∈ c, x ≠ dl.subElementSeparator := by
      apply chunkOK_no_sub hOK
      rw [hid]
      rfl
    have hv := values_of_toSegment hsp hsub
    unfold parseGS at hp
    rw [hv] at hp
    split at hp
    · cases hp
      rw [← joinSep_splitOn dl.elementSeparator c, hsp, hideq]
      rfl
    · exact absurd hp (by simp)

theorem stText_of_parse {dl : Delimiters} {c : List Char} {stH : ST}
    (hOK : chunkOK dl c = true)
    (hid : (toSegment dl c).ID = ['S', 'T'])
    (hp : parseST (toSegment dl c) = .ok stH) :
    stText dl stH = c := by
  rcases hsp : c.splitOn dl.elementSeparator with _ | ⟨id, toks⟩
  · exact absurd hsp (splitOn_ne_nil _ _)
  · have hideq : id = ['S', 'T'] := by
      rw [toSegment_split hsp] at hid
      exact hid
    have hsub : ∀ x ∈ c, x ≠ dl.subElementSeparator := by
      apply chunkOK_no_sub hOK
      rw [hid]
      rfl
    have hv := values_of_toSegment hsp hsub
    unfold parseST at hp
    rw [hv] at hp
    split at hp
    · cases hp
      rw [← joinSep_splitOn dl.elementSeparator c, hsp, hideq]
      rfl
    · rename_i v1 v2 v3
      have h3 : v3 ≠ [] := chunkOK_st3 hOK hid hv
      cases hp
      rw [← joinSep_splitOn dl.elementSeparator c, hsp, hideq, stText, if_neg h3]
    · exact absurd hp (by simp)

theorem seText_of_parse {dl : Delimiters} {c : List Char} {se : SE}
    (hOK : chunkOK dl c = true)
    (hid : (toSegment dl c).ID = ['S', 'E'])
    (hp : parseSE (toSegment dl c) = .ok se) :
    seText dl se = c := by
  rcases hsp : c.splitOn dl.elementSeparator with _ | ⟨id, toks⟩
  · exact absurd hsp (splitOn_ne_nil _ _)
  · have hideq : id = ['S', 'E'] := by
      rw [toSegment_split hsp] at hid
      exact hid
    have hsub : ∀ x ∈ c, x ≠ dl.subElementSeparator := by
      apply chunkOK_no_sub hOK
      rw [hid]
      rfl
    have hv := values_of_toSegment hsp hsub
    unfold parseSE at hp
    rw [hv] at hp
    split at hp
    · cases hp
      rw [← joinSep_splitOn dl.elementSeparator c, hsp, hideq]
      rfl
    · exact absurd hp (by simp)

theorem geText_of_parse {dl : Delimiters} {c : List Char} {ge : GE}
    (hOK : chunkOK dl c = true)
    (hid : (toSegment dl c).ID = ['G', 'E'])
    (hp : parseGE (toSegment dl c) = .ok ge) :
    geText dl ge = c := by
  rcases hsp : c.splitOn dl.elementSeparator with _ | ⟨id, toks⟩
  · exact absurd hsp (splitOn_ne_nil _ _)
  · have hideq : id = ['G', 'E'] := by
      rw [toSegment_split hsp] at hid
      exact hid
    have hsub : ∀ x ∈ c, x ≠ dl.subElementSeparator := by
      apply chunkOK_no_sub hOK
      rw [hid]
      rfl
    have hv := values_of_toSegment hsp hsub
    unfold parseGE at hp
    rw [hv] at hp
    split at hp
    · cases hp
      rw [← joinSep_splitOn dl.elementSeparator c, hsp, hideq]
      rfl
    · exact absurd hp (by simp)

theorem ieaText_of_parse {dl : Delimiters} {c : List Char} {iea : IEA}
    (hOK : chunkOK dl c = true)
    (hid : (toSegment dl c).ID = ['I', 'E', 'A'])
    (hp : parseIEA (toSegment dl c) = .ok iea) :
    ieaText dl iea = c := by
  rcases hsp : c.splitOn dl.elementSeparator with _ | ⟨id, toks⟩
  · exact absurd hsp (splitOn_ne_nil _ _)
  · have hideq : id = ['I', 'E', 'A'] := by
      rw [toSegment_split hsp] at hid
      exact hid
    have hsub : ∀ x ∈ c, x ≠ dl.subElementSeparator := by
      apply chunkOK_no_sub hOK
      rw [hid]
      rfl
    have hv := values_of_toSegment hsp hsub
    unfold parseIEA at hp
    rw [hv] at hp
    split at hp
    · cases hp
      rw [← joinSep_splitOn dl.elementSeparator c, hsp, hideq]
      rfl
    · exact absurd hp (by simp)

/-! ### The tree builder consumes exactly the rendered segment texts -/

theorem runSteps_cons_ok {st : BState} {s : Segment} {ss : List Segment}
    {final : BState} (h : runSteps st (s :: ss) = .ok final) :
    ∃ st2, step st s = .ok st2 ∧ runSteps st2 ss = .ok final := by
  unfold runSteps at h
  cases hstep : step st s with
  | error e =>
    rw [hstep] at h
    simp [Except.bind] at h
  | ok st2 =>
    rw [hstep] at h
    exact ⟨st2, rfl, by simpa [Except.bind] using h⟩

/-- The backward characterization of the builder: a run that ends past the
IEA segment consumed exactly the marshalled texts of what it built. -/
theorem runSteps_inv (dl : Delimiters) (groups : List FunctionGroup) (iea : IEA) :
    ∀ (chunks : List (List Char)) (st : BState),
      (∀ c ∈ chunks, chunkOK dl c = true) →
      runSteps st (chunks.map (toSegment dl)) = .ok (.afterIEA groups iea) →
      (match st with
       | .insideISA gAcc => ∃ gs2, groups = gAcc ++ gs2 ∧
           chunks = (gs2.map (groupTexts dl)).flatten ++ [ieaText dl iea]
       | .insideGS gAcc gsH txnAcc => ∃ txns2 ge gs2,
           groups = gAcc ++ (⟨gsH, txnAcc ++ txns2, ge⟩ : FunctionGroup) :: gs2 ∧
           chunks = (txns2.map (txnTexts dl)).flatten ++ geText dl ge ::
             ((gs2.map (groupTexts dl)).flatten ++ [ieaText dl iea])
       | .insideST gAcc gsH txnAcc stH segAcc => ∃ segs2 se txns2 ge gs2,
           groups = gAcc ++ (⟨gsH, txnAcc ++
             (⟨stH, segAcc ++ segs2, se⟩ : Transaction) :: txns2, ge⟩ :
               FunctionGroup) :: gs2 ∧
           chunks = segs2.map (renderSegmentText dl) ++ seText dl se ::
             ((txns2.map (txnTexts dl)).flatten ++ geText dl ge ::
              ((gs2.map (groupTexts dl)).flatten ++ [ieaText dl iea]))
       | .afterIEA g i => groups = g ∧ iea = i ∧ chunks = []) := by
  intro chunks
  induction chunks with
  | nil =>
    intro st _ h
    rw [List.map_nil] at h
    unfold runSteps at h
    cases st with
    | insideISA gAcc => simp at h
    | insideGS gAcc gsH txnAcc => simp at h
    | insideST gAcc gsH txnAcc stH segAcc => simp at h
    | afterIEA g i =>
      simp only [Except.ok.injEq, BState.afterIEA.injEq] at h
      exact ⟨h.1.symm, h.2.symm, rfl⟩
  | cons c cs ih =>
    intro st hOK h
    rw [List.map_cons] at h
    obtain ⟨st2, hstep, hrun⟩ := runSteps_cons_ok h
    have hOKc : chunkOK dl c = true := hOK c (List.mem_cons_self _ _)
    have hOKcs : ∀ x ∈ cs, chunkOK dl x = true :=
      fun x hx => hOK x (List.mem_cons_of_mem _ hx)
    cases st with
    | insideISA gAcc =>
      simp only [step] at hstep
      by_cases hgs : (toSegment dl c).ID = ['G', 'S']
      · rw [if_pos hgs] at hstep
        obtain ⟨gs, hpgs, hst2⟩ := exceptMap_ok hstep
        subst hst2
        obtain ⟨txns2, ge, gs2, hg, hc⟩ := ih _ hOKcs hrun
        refine ⟨⟨gs, txns2, ge⟩ :: gs2, ?_, ?_⟩
        · rw [hg]
          simp
        · have hcg : gsText dl gs = c := gsText_of_parse hOKc hgs hpgs
          rw [← hcg, hc]
          simp [groupTexts, List.append_assoc]
      · rw [if_neg hgs] at hstep
        by_cases hiea : (toSegment dl c).ID = ['I', 'E', 'A']
        · rw [if_pos hiea] at hstep
          obtain ⟨iea0, hpi, hst2⟩ := exceptMap_ok hstep
          subst hst2
          obtain ⟨hg, hi, hcs⟩ := ih _ hOKcs hrun
          subst hi
          refine ⟨[], by simpa using hg, ?_⟩
          rw [hcs, ieaText_of_parse hOKc hiea hpi]
          rfl
        · rw [if_neg hiea] at hstep
          exact absurd hstep (by simp)
    | insideGS gAcc gsH txnAcc =>
      simp only [step] at hstep
      by_cases hst : (toSegment dl c).ID = ['S', 'T']
      · rw [if_pos hst] at hstep
        obtain ⟨stH, hps, hst2⟩ := exceptMap_ok hstep
        subst hst2
        obtain ⟨segs2, se, txns2, ge, gs2, hg, hc⟩ := ih _ hOKcs hrun
        refine ⟨⟨stH, segs2, se⟩ :: txns2, ge, gs2, ?_, ?_⟩
        · rw [hg]
          simp
        · have hcg : stText dl stH = c := stText_of_parse hOKc hst hps
          rw [← hcg, hc]
          simp [txnTexts, List.append_assoc]
      · rw [if_neg hst] at hstep
        by_cases hge : (toSegment dl c).ID = ['G', 'E']
        · rw [if_pos hge] at hstep
          obtain ⟨ge, hpg, hst2⟩ := exceptMap_ok hstep
          subst hst2
          obtain ⟨gs2, hg, hcs⟩ := ih _ hOKcs hrun
          refine ⟨[], ge, gs2, ?_, ?_⟩
          · rw [hg]
            simp
          · rw [hcs, geText_of_parse hOKc hge hpg]
            rfl
        · rw [if_neg hge] at hstep
          exact absurd hstep (by simp)
    | insideST gAcc gsH txnAcc stH segAcc =>
      simp only [step] at hstep
      by_cases hse : (toSegment dl c).ID = ['S', 'E']
      · rw [if_pos hse] at hstep
        obtain ⟨se, hps, hst2⟩ := exceptMap_ok hstep
        subst hst2
        obtain ⟨txns2, ge, gs2, hg, hc⟩ := ih _ hOKcs hrun
        refine ⟨[], se, txns2, ge, gs2, ?_, ?_⟩
        · rw [hg]
          simp
        · rw [hc, seText_of_parse hOKc hse hps]
          rfl
      · rw [if_neg hse] at hstep
        by_cases henv : isEnvelopeID (toSegment dl c).ID = true
        · rw [if_pos henv] at hstep
          exact absurd hstep (by simp)
        · rw [if_neg henv] at hstep
          have hst2 : st2 = .insideST gAcc gsH txnAcc stH
              (segAcc ++ [toSegment dl c]) := by
            cases hstep
            rfl
          subst hst2
          obtain ⟨segs2, se, txns2, ge, gs2, hg, hc⟩ := ih _ hOKcs hrun
          refine ⟨toSegment dl c :: segs2, se, txns2, ge, gs2, ?_, ?_⟩
          · rw [hg]
            simp
          · rw [hc]
            rw [List.map_cons, renderSegmentText_toSegment]
            rfl
    | afterIEA g i =>
      simp only [step] at hstep
      exact absurd hstep (by simp)

/-! ### Decoding decomposed into its stages -/

theorem map_dropLast_comm (f : List Char → List Char) :
    ∀ (l : List (List Char)), (l.map f).dropLast = l.dropLast.map f := by
  intro l
  induction l with
  | nil => rfl
  | cons a t ih =>
    cases t with
    | nil => rfl
    | cons b t2 =>
      have h1 : List.map f (a :: b :: t2) = f a :: f b :: List.map f t2 := rfl
      rw [h1, List.dropLast_cons₂, List.dropLast_cons₂, List.map_cons,
        ← ih, List.map_cons]

theorem Decode_ok_parts {r : Bool} {b : List Char} {doc : X12Document}
    (h : Decode r b = .ok doc) :
    ∃ dl isa rest chunks,
      probe r b = .ok (dl, isa, rest) ∧
      tokenize dl.segmentTerminator rest = .ok chunks ∧
      build dl isa chunks = .ok doc := by
  unfold Decode at h
  split at h
  · exact absurd h (by simp)
  · cases hp : probe r b with
    | error e =>
      rw [hp] at h
      simp [Except.bind] at h
    | ok pr =>
      obtain ⟨dl, isa, rest⟩ := pr
      rw [hp] at h
      simp only [Except.bind] at h
      cases ht : tokenize dl.segmentTerminator rest with
      | error e =>
        rw [ht] at h
        simp [Except.bind] at h
      | ok chunks =>
        rw [ht] at h
        exact ⟨dl, isa, rest, chunks, rfl, ht, h⟩

theorem build_ok {dl : Delimiters} {isa : ISA} {chunks : List (List Char)}
    {doc : X12Document} (h : build dl isa chunks = .ok doc) :
    ∃ groups iea,
      runSteps (.insideISA []) (chunks.map (toSegment dl)) =
        .ok (.afterIEA groups iea) ∧
      doc = ⟨⟨isa, groups, iea⟩, dl⟩ := by
  unfold build at h
  cases hr : runSteps (.insideISA []) (chunks.map (toSegment dl)) with
  | error e =>
    rw [hr] at h
    simp [Except.bind] at h
  | ok st =>
    rw [hr] at h
    simp only [Except.bind] at h
    cases st with
    | afterIEA groups iea =>
      refine ⟨groups, iea, rfl, ?_⟩
      unfold finalize at h
      cases h
      rfl
    | insideISA gAcc => exact absurd h (by simp [finalize])
    | insideGS gAcc gsH txnAcc => exact absurd h (by simp [finalize])
    | insideST gAcc gsH txnAcc stH segAcc => exact absurd h (by simp [finalize])

theorem WF_parts {b : List Char} {dl : Delimiters} {isa : ISA} {rest : List Char}
    (hp : probe false b = .ok (dl, isa, rest)) (hwf : WF b = true) :
    (∀ x ∈ b, x ≠ '\r') ∧ (∀ x ∈ b.take 106, x ≠ '\n') ∧
    ((rest.splitOn dl.segmentTerminator).getLastD [] = [] ∨
     (rest.splitOn dl.segmentTerminator).getLastD [] = ['\n']) ∧
    (∀ p ∈ (rest.splitOn dl.segmentTerminator).dropLast,
      ('\n' ∉ dropNL p) ∧ chunkOK dl (dropNL p) = true) := by
  unfold WF at hwf
  rw [hp] at hwf
  simp only [Bool.and_eq_true, List.all_eq_true, Bool.or_eq_true,
    decide_eq_true_eq, Bool.not_eq_true', beq_eq_false_iff_ne] at hwf
  obtain ⟨⟨h1, h2⟩, h3, h4⟩ := hwf
  refine ⟨h1, h2, h3, ?_⟩
  intro p hps
  obtain ⟨hn, hok⟩ := h4 p hps
  exact ⟨fun hmem => absurd rfl (hn '\n' hmem), hok⟩

theorem hasNL_parts {b : List Char} {dl : Delimiters} {isa : ISA} {rest : List Char}
    (hp : probe false b = .ok (dl, isa, rest)) (hnl : hasNLAfterEachTerm b = true) :
    (rest.splitOn dl.segmentTerminator).getLastD [] = ['\n'] ∧
    (∀ p ∈ (rest.splitOn dl.segmentTerminator).dropLast, p.head? = some '\n') := by
  unfold hasNLAfterEachTerm at hnl
  rw [hp] at hnl
  simp only [Bool.and_eq_true, List.all_eq_true, decide_eq_true_eq] at hnl
  exact hnl

/-! ### The round-trip law -/

theorem Marshal_eq (m : Marshaler) (doc : X12Document) :
    Marshaler.Marshal m doc =
      ((docTexts doc).map (fun t => t ++ doc.Delimiters.segmentTerminator ::
        (if m.NewLines then ['\n'] else []))).flatten := rfl

theorem head_cons_of_head? {p : List Char} (h : p.head? = some '\n') :
    p = '\n' :: p.tail := by
  cases p with
  | nil => simp at h
  | cons c t =>
    simp only [List.head?_cons, Option.some.injEq] at h
    subst h
    rfl

/-- The two round-trip laws of the spec, for any well-formed input: the
marshalled decoded document reproduces the input with newlines stripped, and
with the NewLines option it reproduces an input that carries a newline after
every segment terminator byte-for-byte. -/
theorem marshal_decode {b : List Char} {doc : X12Document}
    (hwf : WF b = true) (hdec : Decode false b = .ok doc) :
    Marshaler.Marshal ⟨false⟩ doc = stripNewlines b ∧
    (hasNLAfterEachTerm b = true → Marshaler.Marshal ⟨true⟩ doc = b) := by
  obtain ⟨dl, isa, rest, chunks, hp, ht, hb⟩ := Decode_ok_parts hdec
  obtain ⟨groups, iea, hrun, hdoceq⟩ := build_ok hb
  subst hdoceq
  obtain ⟨hdecomp, h105⟩ := probe_false_ok_decomp hp
  obtain ⟨hchunks, hlastWS⟩ := tokenize_eq_ok ht
  obtain ⟨hnor, hnon, hlast, hmid⟩ := WF_parts hp hwf
  set parts := rest.splitOn dl.segmentTerminator with hparts
  have hchunks2 : chunks = parts.dropLast.map dropNL := by
    rw [hchunks, map_dropLast_comm]
  have hmem_rest : ∀ x ∈ rest, x ∈ b := by
    intro x hx
    rw [hdecomp]
    exact List.mem_append_right _ (List.mem_cons_of_mem _ hx)
  have htake : b.take 106 = isaText dl isa ++ [dl.segmentTerminator] := by
    rw [hdecomp]
    have h106 : (106 : Nat) = (isaText dl isa).length + 1 := by rw [h105]
    rw [h106, List.take_append]
    rfl
  have hmem_isa : ∀ x ∈ isaText dl isa, x ∈ b.take 106 := by
    intro x hx
    rw [htake]
    exact List.mem_append_left _ hx
  have hterm106 : dl.segmentTerminator ∈ b.take 106 := by
    rw [htake]
    exact List.mem_append_right _ (List.mem_singleton.mpr rfl)
  have htermnn : dl.segmentTerminator ≠ '\n' := hnon _ hterm106
  have hOKchunks : ∀ c ∈ chunks, chunkOK dl c = true := by
    intro c hc
    rw [hchunks2] at hc
    obtain ⟨p, hp2, hpe⟩ := List.mem_map.mp hc
    rw [← hpe]
    exact (hmid p hp2).2
  obtain ⟨gs2, hgg, hcc⟩ := runSteps_inv dl groups iea chunks (.insideISA [])
    hOKchunks hrun
  rw [List.nil_append] at hgg
  subst hgg
  have hdt : docTexts ⟨⟨isa, groups, iea⟩, dl⟩ = isaText dl isa :: chunks := by
    show isaText dl isa ::
      ((groups.map (groupTexts dl)).flatten ++ [ieaText dl iea]) =
      isaText dl isa :: chunks
    rw [hcc]
  have hpartsne : parts ≠ [] := splitOn_ne_nil _ _
  have hmid2 : ∀ p ∈ parts.dropLast, '\r' ∉ p ∧ '\n' ∉ dropNL p := by
    intro p hp2
    refine ⟨?_, (hmid p hp2).1⟩
    intro hmem
    have hpmem : p ∈ parts := (List.dropLast_sublist parts).subset hp2
    exact hnor '\r' (hmem_rest '\r' (mem_of_mem_splitOn hpmem hmem)) rfl
  have hstriprest : stripNewlines rest =
      ((parts.dropLast.map dropNL).map
        (fun c => c ++ [dl.segmentTerminator])).flatten := by
    conv_lhs => rw [← joinSep_splitOn dl.segmentTerminator rest]
    exact strip_joinSep _ htermnn parts hpartsne hlast hmid2
  constructor
  · rw [Marshal_eq, hdt, List.map_cons, List.flatten_cons]
    rw [hdecomp, strip_append, strip_cons_ne htermnn]
    have hisann : stripNewlines (isaText dl isa) = isaText dl isa :=
      strip_eq_self (fun hmem => hnon '\n' (hmem_isa '\n' hmem) rfl)
    rw [hisann, hstriprest, hchunks2]
    simp [List.append_assoc]
  · intro hnl
    obtain ⟨hlastnl, hheads⟩ := hasNL_parts hp hnl
    have hmapeq : ∀ p ∈ parts.dropLast, '\n' :: dropNL p = p := by
      intro p hp2
      have hpe := head_cons_of_head? (hheads p hp2)
      conv_lhs => rw [hpe, dropNL_cons_nl]
      conv_rhs => rw [hpe]
    have hdroplast_eq : parts.dropLast = chunks.map (fun c => '\n' :: c) := by
      have hmm : chunks.map (fun c => '\n' :: c) =
          parts.dropLast.map (fun p => '\n' :: dropNL p) := by
        rw [hchunks2, List.map_map]
        rfl
      rw [hmm]
      conv_lhs => rw [← List.map_id parts.dropLast]
      exact List.map_congr_left (fun p hp2 => (hmapeq p hp2).symm)
    have hgetlast : parts.getLast hpartsne = ['\n'] := by
      rw [← hlastnl, List.getLastD_eq_getLast?, List.getLast?_eq_getLast parts hpartsne]
      rfl
    have hparts_eq : parts = chunks.map (fun c => '\n' :: c) ++ [['\n']] := by
      conv_lhs => rw [← List.dropLast_append_getLast hpartsne]
      rw [hdroplast_eq, hgetlast]
    have hrest_eq : rest = '\n' ::
        (chunks.map (fun c => c ++ [dl.segmentTerminator, '\n'])).flatten := by
      conv_lhs => rw [← joinSep_splitOn dl.segmentTerminator rest]
      rw [← hparts, hparts_eq, joinSep_nlsched]
    rw [Marshal_eq, hdt, List.map_cons, List.flatten_cons]
    rw [hdecomp, hrest_eq]
    simp [List.append_assoc]

/-! ### Marshalled documents decode back -/

theorem mem_joinSep {sep : Char} {x : Char} :
    ∀ {ls : List (List Char)}, x ∈ joinSep sep ls →
      x = sep ∨ ∃ l ∈ ls, x ∈ l := by
  intro ls
  induction ls with
  | nil =>
    intro h
    simp [joinSep, List.intercalate] at h
  | cons a t ih =>
    intro h
    cases t with
    | nil =>
      rw [joinSep_single] at h
      exact Or.inr ⟨a, List.mem_singleton.mpr rfl, h⟩
    | cons b t2 =>
      rw [joinSep_cons_cons] at h
      rcases List.mem_append.mp h with h | h
      · exact Or.inr ⟨a, List.mem_cons_self _ _, h⟩
      · rcases List.mem_cons.mp h with h | h
        · exact Or.inl h
        · rcases ih h with h | ⟨l, hl, hx⟩
          · exact Or.inl h
          · exact Or.inr ⟨l, List.mem_cons_of_mem _ hl, hx⟩

theorem sep_mem_of_splitOn_len {sep : Char} {c : List Char}
    (h : 2 ≤ (c.splitOn sep).length) : sep ∈ c := by
  have hlen : (c.splitOn sep).length = c.countP (fun x => x == sep) + 1 :=
    length_splitOnP (fun x => x == sep) c
  have hpos : 0 < c.countP (fun x => x == sep) := by omega
  obtain ⟨a, ha, hpa⟩ := List.countP_pos_iff.mp hpos
  have : a = sep := by simpa using hpa
  exact this ▸ ha

theorem splitOn_singleton_not_mem {sep : Char} {t x : List Char}
    (h : t.splitOn sep = [x]) : sep ∉ t := by
  have hx : x = t := by
    have := joinSep_splitOn sep t
    rw [h, joinSep_single] at this
    exact this
  subst hx
  exact not_mem_splitOn (h ▸ List.mem_singleton.mpr rfl)

theorem length_mkElements (dl : Delimiters) :
    ∀ (toks : List (List Char)) (i : Nat),
      (mkElements dl i toks).length = toks.length := by
  intro toks
  induction toks with
  | nil => intro i; rfl
  | cons t ts ih =>
    intro i
    rw [mkElements, List.length_cons, List.length_cons, ih]

theorem mem_mkElements {dl : Delimiters} {e : Element} :
    ∀ {toks : List (List Char)} {i : Nat}, e ∈ mkElements dl i toks →
      ∃ j tok, tok ∈ toks ∧ e = mkElement dl j tok := by
  intro toks
  induction toks with
  | nil =>
    intro i h
    simp [mkElements] at h
  | cons t ts ih =>
    intro i h
    rw [mkElements] at h
    rcases List.mem_cons.mp h with h | h
    · exact ⟨i, t, List.mem_cons_self _ _, h⟩
    · obtain ⟨j, tok, htok, he⟩ := ih h
      exact ⟨j, tok, List.mem_cons_of_mem _ htok, he⟩

theorem value_mkElement_cases (dl : Delimiters) (i : Nat) (tok : List Char) :
    ((mkElement dl i tok).Value = tok ∧ dl.subElementSeparator ∉ tok) ∨
    (mkElement dl i tok).Value = [] := by
  rcases h : tok.splitOn dl.subElementSeparator with _ | ⟨x, xs⟩
  · exact absurd h (splitOn_ne_nil _ _)
  · cases xs with
    | nil =>
      left
      constructor
      · simp [mkElement, h]
      · exact splitOn_singleton_not_mem h
    | cons y ys =>
      right
      simp [mkElement, h]

/-- Every element value of a tokenized chunk is separator-free and drawn
from the chunk. -/
theorem values_toSegment_clean (dl : Delimiters) (c : List Char) :
    ∀ v ∈ values (toSegment dl c),
      dl.elementSeparator ∉ v ∧ dl.subElementSeparator ∉ v ∧
      ∀ x ∈ v, x ∈ c := by
  intro v hv
  rcases hsp : c.splitOn dl.elementSeparator with _ | ⟨id, toks⟩
  · exact absurd hsp (splitOn_ne_nil _ _)
  · rw [toSegment_split hsp] at hv
    unfold values at hv
    simp only [List.mem_map] at hv
    obtain ⟨e, he, hev⟩ := hv
    obtain ⟨j, tok, htok, hetok⟩ := mem_mkElements he
    have htokmem : tok ∈ c.splitOn dl.elementSeparator := by
      rw [hsp]
      exact List.mem_cons_of_mem _ htok
    rcases value_mkElement_cases dl j tok with ⟨hval, hsub⟩ | hval
    · subst hetok
      rw [hval] at hev
      subst hev
      exact ⟨not_mem_splitOn htokmem, hsub,
        fun x hx => mem_of_mem_splitOn htokmem hx⟩
    · subst hetok
      rw [hval] at hev
      subst hev
      exact ⟨by simp, by simp, by simp⟩

theorem toSegment_joinSep (dl : Delimiters) {id : List Char}
    {fs : List (List Char)} (hid : dl.elementSeparator ∉ id)
    (hfs : ∀ f ∈ fs, dl.elementSeparator ∉ f) :
    toSegment dl (joinSep dl.elementSeparator (id :: fs)) =
      ⟨id, mkElements dl 1 fs⟩ := by
  have hsp : (joinSep dl.elementSeparator (id :: fs)).splitOn
      dl.elementSeparator = id :: fs := by
    unfold joinSep
    apply List.splitOn_intercalate
    · intro l hl
      rcases List.mem_cons.mp hl with h | h
      · exact h ▸ hid
      · exact hfs l h
    · exact List.cons_ne_nil _ _
  exact toSegment_split hsp

theorem reparse_fields (dl : Delimiters) {id : List Char}
    {fs : List (List Char)} (hid : dl.elementSeparator ∉ id)
    (hfs : ∀ f ∈ fs, dl.elementSeparator ∉ f ∧ dl.subElementSeparator ∉ f) :
    toSegment dl (joinSep dl.elementSeparator (id :: fs)) =
      ⟨id, mkElements dl 1 fs⟩ ∧
    values (toSegment dl (joinSep dl.elementSeparator (id :: fs))) = fs := by
  have hts := toSegment_joinSep dl hid (fun f hf => (hfs f hf).1)
  refine ⟨hts, ?_⟩
  rw [hts]
  unfold values
  exact map_value_mkElements dl fs 1 (fun t ht => (hfs t ht).2)

theorem term_not_mem_joinSep {dl : Delimiters} {id : List Char}
    {fs : List (List Char)} (hne : dl.segmentTerminator ≠ dl.elementSeparator)
    (hid : dl.segmentTerminator ∉ id)
    (hfs : ∀ f ∈ fs, dl.segmentTerminator ∉ f) :
    dl.segmentTerminator ∉ joinSep dl.elementSeparator (id :: fs) := by
  intro hmem
  rcases mem_joinSep hmem with h | ⟨l, hl, hx⟩
  · exact hne h
  · rcases List.mem_cons.mp hl with h | h
    · exact hid (h ▸ hx)
    · exact hfs l h hx

theorem gs_rt {dl : Delimiters} {g : GS}
    (hfs : ∀ f ∈ gsFields g, dl.elementSeparator ∉ f ∧
      dl.subElementSeparator ∉ f ∧ dl.segmentTerminator ∉ f)
    (hid1 : dl.elementSeparator ∉ (['G', 'S'] : List Char))
    (hid2 : dl.segmentTerminator ∉ (['G', 'S'] : List Char))
    (hne : dl.segmentTerminator ≠ dl.elementSeparator) : GSRT dl g := by
  have hgst : gsText dl g =
      joinSep dl.elementSeparator (['G', 'S'] :: gsFields g) := rfl
  obtain ⟨hts, hvals⟩ := reparse_fields dl hid1
    (fun f hf => ⟨(hfs f hf).1, (hfs f hf).2.1⟩)
  refine ⟨?_, ?_, ?_⟩
  · rw [hgst, hts]
  · rw [hgst]
    unfold parseGS
    rw [hvals]
    rfl
  · rw [hgst]
    exact term_not_mem_joinSep hne hid2 (fun f hf => (hfs f hf).2.2)

theorem st_rt {dl : Delimiters} {s : ST}
    (hfs : ∀ f ∈ stFields s, dl.elementSeparator ∉ f ∧
      dl.subElementSeparator ∉ f ∧ dl.segmentTerminator ∉ f)
    (hid1 : dl.elementSeparator ∉ (['S', 'T'] : List Char))
    (hid2 : dl.segmentTerminator ∉ (['S', 'T'] : List Char))
    (hne : dl.segmentTerminator ≠ dl.elementSeparator) : STRT dl s := by
  have hstt : stText dl s =
      joinSep dl.elementSeparator (['S', 'T'] :: stFields s) := by
    unfold stText stFields
    by_cases hc : s.ImplementationConventionReference = []
    · rw [if_pos hc, if_pos hc]
    · rw [if_neg hc, if_neg hc]
  obtain ⟨hts, hvals⟩ := reparse_fields dl hid1
    (fun f hf => ⟨(hfs f hf).1, (hfs f hf).2.1⟩)
  refine ⟨?_, ?_, ?_⟩
  · rw [hstt, hts]
  · rw [hstt]
    unfold parseST
    rw [hvals]
    unfold stFields
    by_cases hc : s.ImplementationConventionReference = []
    · rw [if_pos hc]
      show Except.ok (⟨s.TransactionSetIDCode, s.TransactionSetControlNumber,
        ([] : List Char)⟩ : ST) = Except.ok s
      rw [← hc]
    · rw [if_neg hc]
  · rw [hstt]
    exact term_not_mem_joinSep hne hid2 (fun f hf => (hfs f hf).2.2)

theorem se_rt {dl : Delimiters} {s : SE}
    (hfs : ∀ f ∈ seFields s, dl.elementSeparator ∉ f ∧
      dl.subElementSeparator ∉ f ∧ dl.segmentTerminator ∉ f)
    (hid1 : dl.elementSeparator ∉ (['S', 'E'] : List Char))
    (hid2 : dl.segmentTerminator ∉ (['S', 'E'] : List Char))
    (hne : dl.segmentTerminator ≠ dl.elementSeparator) : SERT dl s := by
  have hset : seText dl s =
      joinSep dl.elementSeparator (['S', 'E'] :: seFields s) := rfl
  obtain ⟨hts, hvals⟩ := reparse_fields dl hid1
    (fun f hf => ⟨(hfs f hf).1, (hfs f hf).2.1⟩)
  refine ⟨?_, ?_, ?_⟩
  · rw [hset, hts]
  · rw [hset]
    unfold parseSE
    rw [hvals]
    rfl
  · rw [hset]
    exact term_not_mem_joinSep hne hid2 (fun f hf => (hfs f hf).2.2)

theorem ge_rt {dl : Delimiters} {g : GE}
    (hfs : ∀ f ∈ geFields g, dl.elementSeparator ∉ f ∧
      dl.subElementSeparator ∉ f ∧ dl.segmentTerminator ∉ f)
    (hid1 : dl.elementSeparator ∉ (['G', 'E'] : List Char))
    (hid2 : dl.segmentTerminator ∉ (['G', 'E'] : List Char))
    (hne : dl.segmentTerminator ≠ dl.elementSeparator) : GERT dl g := by
  have hget : geText dl g =
      joinSep dl.elementSeparator (['G', 'E'] :: geFields g) := rfl
  obtain ⟨hts, hvals⟩ := reparse_fields dl hid1
    (fun f hf => ⟨(hfs f hf).1, (hfs f hf).2.1⟩)
  refine ⟨?_, ?_, ?_⟩
  · rw [hget, hts]
  · rw [hget]
    unfold parseGE
    rw [hvals]
    rfl
  · rw [hget]
    exact term_not_mem_joinSep hne hid2 (fun f hf => (hfs f hf).2.2)

theorem iea_rt {dl : Delimiters} {i : IEA}
    (hfs : ∀ f ∈ ieaFields i, dl.elementSeparator ∉ f ∧
      dl.subElementSeparator ∉ f ∧ dl.segmentTerminator ∉ f)
    (hid1 : dl.elementSeparator ∉ (['I', 'E', 'A'] : List Char))
    (hid2 : dl.segmentTerminator ∉ (['I', 'E', 'A'] : List Char))
    (hne : dl.segmentTerminator ≠ dl.elementSeparator) : IEART dl i := by
  have hit : ieaText dl i =
      joinSep dl.elementSeparator (['I', 'E', 'A'] :: ieaFields i) := rfl
  obtain ⟨hts, hvals⟩ := reparse_fields dl hid1
    (fun f hf => ⟨(hfs f hf).1, (hfs f hf).2.1⟩)
  refine ⟨?_, ?_, ?_⟩
  · rw [hit, hts]
  · rw [hit]
    unfold parseIEA
    rw [hvals]
    rfl
  · rw [hit]
    exact term_not_mem_joinSep hne hid2 (fun f hf => (hfs f hf).2.2)

theorem values_clean_term {dl : Delimiters} {c : List Char}
    (hterm : dl.segmentTerminator ∉ c) :
    ∀ v ∈ values (toSegment dl c),
      dl.elementSeparator ∉ v ∧ dl.subElementSeparator ∉ v ∧
      dl.segmentTerminator ∉ v := by
  intro v hv
  obtain ⟨h1, h2, h3⟩ := values_toSegment_clean dl c v hv
  exact ⟨h1, h2, fun hm => hterm (h3 _ hm)⟩

theorem env_forward_facts {dl : Delimiters} {c : List Char}
    (hterm : dl.segmentTerminator ∉ c) {id : List Char}
    {toks : List (List Char)}
    (hsp : c.splitOn dl.elementSeparator = id :: toks) (hne : toks ≠ []) :
    dl.elementSeparator ∉ id ∧ dl.segmentTerminator ∉ id ∧
    dl.segmentTerminator ≠ dl.elementSeparator := by
  have hidmem : id ∈ c.splitOn dl.elementSeparator := by
    rw [hsp]
    exact List.mem_cons_self _ _
  refine ⟨not_mem_splitOn hidmem, ?_, ?_⟩
  · intro hmem
    exact hterm (mem_of_mem_splitOn hidmem hmem)
  · have hlen : 2 ≤ (c.splitOn dl.elementSeparator).length := by
      rw [hsp]
      cases toks with
      | nil => exact absurd rfl hne
      | cons t ts => simp
    have hsep := sep_mem_of_splitOn_len hlen
    intro he
    exact hterm (he ▸ hsep)

theorem values_length_toSegment {dl : Delimiters} {c : List Char}
    {id : List Char} {toks : List (List Char)}
    (hsp : c.splitOn dl.elementSeparator = id :: toks) :
    (values (toSegment dl c)).length = toks.length := by
  rw [toSegment_split hsp]
  unfold values
  rw [List.length_map, length_mkElements]

theorem parseGS_forward {dl : Delimiters} {c : List Char} {gs : GS}
    (hterm : dl.segmentTerminator ∉ c)
    (hid : (toSegment dl c).ID = ['G', 'S'])
    (hp : parseGS (toSegment dl c) = .ok gs) : GSRT dl gs := by
  rcases hsp : c.splitOn dl.elementSeparator with _ | ⟨id, toks⟩
  · exact absurd hsp (splitOn_ne_nil _ _)
  · have hideq : id = ['G', 'S'] := by
      rw [toSegment_split hsp] at hid
      exact hid
    subst hideq
    obtain ⟨hvfields, htoksne⟩ : gsFields gs = values (toSegment dl c) ∧
        toks ≠ [] := by
      unfold parseGS at hp
      split at hp
      · rename_i v1 v2 v3 v4 v5 v6 v7 v8 heq
        cases hp
        refine ⟨by rw [heq]; rfl, ?_⟩
        intro he
        subst he
        have hl := values_length_toSegment hsp
        rw [heq] at hl
        simp at hl
      · exact absurd hp (by simp)
    obtain ⟨hf1, hf2, hf3⟩ := env_forward_facts hterm hsp htoksne
    apply gs_rt ?_ hf1 hf2 hf3
    intro f hf
    exact values_clean_term hterm f (hvfields ▸ hf)

theorem parseST_forward {dl : Delimiters} {c : List Char} {stH : ST}
    (hterm : dl.segmentTerminator ∉ c)
    (hid : (toSegment dl c).ID = ['S', 'T'])
    (hp : parseST (toSegment dl c) = .ok stH) : STRT dl stH := by
  rcases hsp : c.splitOn dl.elementSeparator with _ | ⟨id, toks⟩
  · exact absurd hsp (splitOn_ne_nil _ _)
  · have hideq : id = ['S', 'T'] := by
      rw [toSegment_split hsp] at hid
      exact hid
    subst hideq
    obtain ⟨hvfields, htoksne⟩ : (∀ f ∈ stFields stH,
        f ∈ values (toSegment dl c)) ∧ toks ≠ [] := by
      unfold parseST at hp
      split at hp
      · rename_i v1 v2 heq
        cases hp
        constructor
        · intro f hf
          rw [heq]
          unfold stFields at hf
          rw [if_pos rfl] at hf
          rcases List.mem_cons.mp hf with h | h
          · exact h ▸ List.mem_cons_self _ _
          · rw [List.mem_singleton.mp h]
            exact List.mem_cons_of_mem _ (List.mem_cons_self _ _)
        · intro he
          subst he
          have hl := values_length_toSegment hsp
          rw [heq] at hl
          simp at hl
      · rename_i v1 v2 v3 heq
        cases hp
        constructor
        · intro f hf
          rw [heq]
          unfold stFields at hf
          by_cases hc : (v3 : List Char) = []
          · rw [if_pos hc] at hf
            rcases List.mem_cons.mp hf with h | h
            · exact h ▸ List.mem_cons_self _ _
            · rw [List.mem_singleton.mp h]
              exact List.mem_cons_of_mem _ (List.mem_cons_self _ _)
          · rw [if_neg hc] at hf
            rcases List.mem_cons.mp hf with h | h
            · exact h ▸ List.mem_cons_self _ _
            · rcases List.mem_cons.mp h with h2 | h2
              · rw [h2]
                exact List.mem_cons_of_mem _ (List.mem_cons_self _ _)
              · rw [List.mem_singleton.mp h2]
                exact List.mem_cons_of_mem _
                  (List.mem_cons_of_mem _ (List.mem_cons_self _ _))
        · intro he
          subst he
          have hl := values_length_toSegment hsp
          rw [heq] at hl
          simp at hl
      · exact absurd hp (by simp)
    obtain ⟨hf1, hf2, hf3⟩ := env_forward_facts hterm hsp htoksne
    apply st_rt ?_ hf1 hf2 hf3
    intro f hf
    exact values_clean_term hterm f (hvfields f hf)

theorem parseSE_forward {dl : Delimiters} {c : List Char} {se : SE}
    (hterm : dl.segmentTerminator ∉ c)
    (hid : (toSegment dl c).ID = ['S', 'E'])
    (hp : parseSE (toSegment dl c) = .ok se) : SERT dl se := by
  rcases hsp : c.splitOn dl.elementSeparator with _ | ⟨id, toks⟩
  · exact absurd hsp (splitOn_ne_nil _ _)
  · have hideq : id = ['S', 'E'] := by
      rw [toSegment_split hsp] at hid
      exact hid
    subst hideq
    obtain ⟨hvfields, htoksne⟩ : seFields se = values (toSegment dl c) ∧
        toks ≠ [] := by
      unfold parseSE at hp
      split at hp
      · rename_i v1 v2 heq
        cases hp
        refine ⟨by rw [heq]; rfl, ?_⟩
        intro he
        subst he
        have hl := values_length_toSegment hsp
        rw [heq] at hl
        simp at hl
      · exact absurd hp (by simp)
    obtain ⟨hf1, hf2, hf3⟩ := env_forward_facts hterm hsp htoksne
    apply se_rt ?_ hf1 hf2 hf3
    intro f hf
    exact values_clean_term hterm f (hvfields ▸ hf)

theorem parseGE_forward {dl : Delimiters} {c : List Char} {ge : GE}
    (hterm : dl.segmentTerminator ∉ c)
    (hid : (toSegment dl c).ID = ['G', 'E'])
    (hp : parseGE (toSegment dl c) = .ok ge) : GERT dl ge := by
  rcases hsp : c.splitOn dl.elementSeparator with _ | ⟨id, toks⟩
  · exact absurd hsp (splitOn_ne_nil _ _)
  · have hideq : id = ['G', 'E'] := by
      rw [toSegment_split hsp] at hid
      exact hid
    subst hideq
    obtain ⟨hvfields, htoksne⟩ : geFields ge = values (toSegment dl c) ∧
        toks ≠ [] := by
      unfold parseGE at hp
      split at hp
      · rename_i v1 v2 heq
        cases hp
        refine ⟨by rw [heq]; rfl, ?_⟩
        intro he
        subst he
        have hl := values_length_toSegment hsp
        rw [heq] at hl
        simp at hl
      · exact absurd hp (by simp)
    obtain ⟨hf1, hf2, hf3⟩ := env_forward_facts hterm hsp htoksne
    apply ge_rt ?_ hf1 hf2 hf3
    intro f hf
    exact values_clean_term hterm f (hvfields ▸ hf)

theorem parseIEA_forward {dl : Delimiters} {c : List Char} {iea : IEA}
    (hterm : dl.segmentTerminator ∉ c)
    (hid : (toSegment dl c).ID = ['I', 'E', 'A'])
    (hp : parseIEA (toSegment dl c) = .ok iea) : IEART dl iea := by
  rcases hsp : c.splitOn dl.elementSeparator with _ | ⟨id, toks⟩
  · exact absurd hsp (splitOn_ne_nil _ _)
  · have hideq : id = ['I', 'E', 'A'] := by
      rw [toSegment_split hsp] at hid
      exact hid
    subst hideq
    obtain ⟨hvfields, htoksne⟩ : ieaFields iea = values (toSegment dl c) ∧
        toks ≠ [] := by
      unfold parseIEA at hp
      split at hp
      · rename_i v1 v2 heq
        cases hp
        refine ⟨by rw [heq]; rfl, ?_⟩
        intro he
        subst he
        have hl := values_length_toSegment hsp
        rw [heq] at hl
        simp at hl
      · exact absurd hp (by simp)
    obtain ⟨hf1, hf2, hf3⟩ := env_forward_facts hterm hsp htoksne
    apply iea_rt ?_ hf1 hf2 hf3
    intro f hf
    exact values_clean_term hterm f (hvfields ▸ hf)

theorem seg_forward {dl : Delimiters} {c : List Char}
    (hterm : dl.segmentTerminator ∉ c)
    (henv : ¬ isEnvelopeID (toSegment dl c).ID = true) :
    SegRT dl (toSegment dl c) := by
  refine ⟨toSegment_renderSegmentText rfl, ?_, ?_⟩
  · rw [renderSegmentText_toSegment]
    exact hterm
  · exact Bool.not_eq_true _ ▸ henv

/-- A builder run on terminator-free chunks preserves the re-decode
invariant. -/
theorem runSteps_preserve (dl : Delimiters) :
    ∀ (chunks : List (List Char)) (st final : BState),
      (∀ c ∈ chunks, dl.segmentTerminator ∉ c) →
      runSteps st (chunks.map (toSegment dl)) = .ok final →
      StClean dl st → StClean dl final := by
  intro chunks
  induction chunks with
  | nil =>
    intro st final _ h hcl
    rw [List.map_nil] at h
    unfold runSteps at h
    cases h
    exact hcl
  | cons c cs ih =>
    intro st final hterm h hcl
    rw [List.map_cons] at h
    obtain ⟨st2, hstep, hrun⟩ := runSteps_cons_ok h
    have htermc : dl.segmentTerminator ∉ c := hterm c (List.mem_cons_self _ _)
    have htermcs : ∀ x ∈ cs, dl.segmentTerminator ∉ x :=
      fun x hx => hterm x (List.mem_cons_of_mem _ hx)
    refine ih st2 final htermcs hrun ?_
    cases st with
    | insideISA groups =>
      simp only [step] at hstep
      by_cases hgs : (toSegment dl c).ID = ['G', 'S']
      · rw [if_pos hgs] at hstep
        obtain ⟨gs, hpgs, hst2⟩ := exceptMap_ok hstep
        subst hst2
        exact ⟨hcl, parseGS_forward htermc hgs hpgs, by simp⟩
      · rw [if_neg hgs] at hstep
        by_cases hiea : (toSegment dl c).ID = ['I', 'E', 'A']
        · rw [if_pos hiea] at hstep
          obtain ⟨iea0, hpi, hst2⟩ := exceptMap_ok hstep
          subst hst2
          exact ⟨hcl, parseIEA_forward htermc hiea hpi⟩
        · rw [if_neg hiea] at hstep
          exact absurd hstep (by simp)
    | insideGS groups gs txns =>
      obtain ⟨hgroups, hgs0, htxns⟩ := hcl
      simp only [step] at hstep
      by_cases hst : (toSegment dl c).ID = ['S', 'T']
      · rw [if_pos hst] at hstep
        obtain ⟨stH, hps, hst2⟩ := exceptMap_ok hstep
        subst hst2
        exact ⟨hgroups, hgs0, htxns, parseST_forward htermc hst hps, by simp⟩
      · rw [if_neg hst] at hstep
        by_cases hge : (toSegment dl c).ID = ['G', 'E']
        · rw [if_pos hge] at hstep
          obtain ⟨ge, hpg, hst2⟩ := exceptMap_ok hstep
          subst hst2
          intro g hg
          rcases List.mem_append.mp hg with h | h
          · exact hgroups g h
          · rw [List.mem_singleton.mp h]
            exact ⟨hgs0, htxns, parseGE_forward htermc hge hpg⟩
        · rw [if_neg hge] at hstep
          exact absurd hstep (by simp)
    | insideST groups gs txns stH segs =>
      obtain ⟨hgroups, hgs0, htxns, hstH, hsegs⟩ := hcl
      simp only [step] at hstep
      by_cases hse : (toSegment dl c).ID = ['S', 'E']
      · rw [if_pos hse] at hstep
        obtain ⟨se, hps, hst2⟩ := exceptMap_ok hstep
        subst hst2
        refine ⟨hgroups, hgs0, ?_⟩
        intro t ht
        rcases List.mem_append.mp ht with h | h
        · exact htxns t h
        · rw [List.mem_singleton.mp h]
          exact ⟨hstH, hsegs, parseSE_forward htermc hse hps⟩
      · rw [if_neg hse] at hstep
        by_cases henv : isEnvelopeID (toSegment dl c).ID = true
        · rw [if_pos henv] at hstep
          exact absurd hstep (by simp)
        · rw [if_neg henv] at hstep
          have hst2 : st2 = .insideST groups gs txns stH
              (segs ++ [toSegment dl c]) := by
            cases hstep
            rfl
          subst hst2
          refine ⟨hgroups, hgs0, htxns, hstH, ?_⟩
          intro s hs
          rcases List.mem_append.mp hs with h | h
          · exact hsegs s h
          · rw [List.mem_singleton.mp h]
            exact seg_forward htermc henv
    | afterIEA g i =>
      simp only [step] at hstep
      exact absurd hstep (by simp)

theorem runSteps_append (l1 l2 : List Segment) :
    ∀ (st : BState), runSteps st (l1 ++ l2) =
      (runSteps st l1).bind fun st2 => runSteps st2 l2 := by
  induction l1 with
  | nil => intro st; rfl
  | cons s ss ih =>
    intro st
    show runSteps st (s :: (ss ++ l2)) =
      (runSteps st (s :: ss)).bind fun st2 => runSteps st2 l2
    rw [show runSteps st (s :: (ss ++ l2)) =
        (step st s).bind (fun st2 => runSteps st2 (ss ++ l2)) from rfl,
      show runSteps st (s :: ss) =
        (step st s).bind (fun st2 => runSteps st2 ss) from rfl]
    cases h : step st s with
    | error e => rfl
    | ok st2 =>
      show runSteps st2 (ss ++ l2) = (runSteps st2 ss).bind fun st3 => runSteps st3 l2
      exact ih st2

theorem dropNL_eq_self2 {l : List Char} (h1 : l.head? ≠ some '\n')
    (h2 : l.head? ≠ some '\r') : dropNL l = l := by
  unfold dropNL
  rw [if_neg h1, if_neg]
  rintro ⟨hr, -⟩
  exact h2 hr

theorem head?_joinSep_cons {sep : Char} {x : Char} {xs : List Char}
    {fs : List (List Char)} :
    (joinSep sep ((x :: xs) :: fs)).head? = some x := by
  cases fs with
  | nil => rw [joinSep_single]; rfl
  | cons f fs2 =>
    rw [joinSep_cons_cons, List.cons_append]
    rfl

theorem runSteps_segs_render (dl : Delimiters) (gAcc : List FunctionGroup)
    (gsH : GS) (txnAcc : List Transaction) (stH : ST) :
    ∀ (segs segAcc : List Segment), (∀ s ∈ segs, SegRT dl s) →
      runSteps (.insideST gAcc gsH txnAcc stH segAcc)
        ((segs.map (renderSegmentText dl)).map (toSegment dl)) =
        .ok (.insideST gAcc gsH txnAcc stH (segAcc ++ segs)) := by
  intro segs
  induction segs with
  | nil =>
    intro segAcc _
    simp [runSteps]
  | cons s ss ih =>
    intro segAcc hRT
    obtain ⟨hts, hterm, henv⟩ := hRT s (List.mem_cons_self _ _)
    rw [List.map_cons, List.map_cons, hts]
    show runSteps _ (s :: _) = _
    unfold runSteps
    have hse : ¬ s.ID = ['S', 'E'] := by
      intro he
      rw [he] at henv
      simp [isEnvelopeID] at henv
    have henv2 : ¬ isEnvelopeID s.ID = true := by
      rw [henv]
      simp
    simp only [step]
    rw [if_neg hse, if_neg henv2]
    simp only [Except.bind]
    rw [ih (segAcc ++ [s]) (fun x hx => hRT x (List.mem_cons_of_mem _ hx))]
    simp [List.append_assoc]

theorem runSteps_txn_render (dl : Delimiters) (gAcc : List FunctionGroup)
    (gsH : GS) (txnAcc : List Transaction) (t : Transaction)
    (hRT : TxnRT dl t) :
    runSteps (.insideGS gAcc gsH txnAcc) ((txnTexts dl t).map (toSegment dl)) =
      .ok (.insideGS gAcc gsH (txnAcc ++ [t])) := by
  obtain ⟨⟨hstid, hstp, -⟩, hsegs, ⟨hseid, hsep2, -⟩⟩ := hRT
  rw [txnTexts, List.map_cons]
  show runSteps _ (toSegment dl (stText dl t.Header) :: _) = _
  unfold runSteps
  simp only [step]
  rw [if_pos hstid, hstp]
  simp only [Except.map, Except.bind]
  rw [List.map_append, runSteps_append]
  rw [runSteps_segs_render dl gAcc gsH txnAcc t.Header t.Segments [] hsegs]
  simp only [Except.bind, List.nil_append]
  simp only [List.map_cons, List.map_nil]
  unfold runSteps
  simp only [step]
  rw [if_pos hseid, hsep2]
  simp only [Except.map, Except.bind]
  rfl

theorem runSteps_txns_render (dl : Delimiters) (gAcc : List FunctionGroup)
    (gsH : GS) :
    ∀ (txns txnAcc : List Transaction), (∀ t ∈ txns, TxnRT dl t) →
      runSteps (.insideGS gAcc gsH txnAcc)
        (((txns.map (txnTexts dl)).flatten).map (toSegment dl)) =
        .ok (.insideGS gAcc gsH (txnAcc ++ txns)) := by
  intro txns
  induction txns with
  | nil =>
    intro txnAcc _
    simp [runSteps]
  | cons t ts ih =>
    intro txnAcc hRT
    rw [List.map_cons, List.flatten_cons, List.map_append, runSteps_append]
    rw [runSteps_txn_render dl gAcc gsH txnAcc t (hRT t (List.mem_cons_self _ _))]
    simp only [Except.bind]
    rw [ih (txnAcc ++ [t]) (fun x hx => hRT x (List.mem_cons_of_mem _ hx))]
    simp [List.append_assoc]

theorem runSteps_group_render (dl : Delimiters) (gAcc : List FunctionGroup)
    (g : FunctionGroup) (hRT : GroupRT dl g) :
    runSteps (.insideISA gAcc) ((groupTexts dl g).map (toSegment dl)) =
      .ok (.insideISA (gAcc ++ [g])) := by
  obtain ⟨⟨hgsid, hgsp, -⟩, htxns, ⟨hgeid, hgep, -⟩⟩ := hRT
  rw [groupTexts, List.map_cons]
  show runSteps _ (toSegment dl (gsText dl g.Header) :: _) = _
  unfold runSteps
  simp only [step]
  rw [if_pos hgsid, hgsp]
  simp only [Except.map, Except.bind]
  rw [List.map_append, runSteps_append]
  rw [runSteps_txns_render dl gAcc g.Header g.Transactions [] htxns]
  simp only [Except.bind, List.nil_append]
  simp only [List.map_cons, List.map_nil]
  unfold runSteps
  simp only [step]
  have hgsne : ¬ (toSegment dl (geText dl g.Trailer)).ID = ['S', 'T'] := by
    rw [hgeid]
    simp
  rw [if_neg hgsne, if_pos hgeid, hgep]
  simp only [Except.map, Except.bind]
  rfl

theorem runSteps_groups_render (dl : Delimiters) :
    ∀ (groups gAcc : List FunctionGroup), (∀ g ∈ groups, GroupRT dl g) →
      runSteps (.insideISA gAcc)
        (((groups.map (groupTexts dl)).flatten).map (toSegment dl)) =
        .ok (.insideISA (gAcc ++ groups)) := by
  intro groups
  induction groups with
  | nil =>
    intro gAcc _
    simp [runSteps]
  | cons g gs ih =>
    intro gAcc hRT
    rw [List.map_cons, List.flatten_cons, List.map_append, runSteps_append]
    rw [runSteps_group_render dl gAcc g (hRT g (List.mem_cons_self _ _))]
    simp only [Except.bind]
    rw [ih (gAcc ++ [g]) (fun x hx => hRT x (List.mem_cons_of_mem _ hx))]
    simp [List.append_assoc]

theorem build_render (dl : Delimiters) (isa : ISA) (groups : List FunctionGroup)
    (iea : IEA) (hG : ∀ g ∈ groups, GroupRT dl g) (hI : IEART dl iea) :
    build dl isa ((groups.map (groupTexts dl)).flatten ++ [ieaText dl iea]) =
      .ok ⟨⟨isa, groups, iea⟩, dl⟩ := by
  obtain ⟨hieaid, hieap, -⟩ := hI
  unfold build
  rw [List.map_append, runSteps_append]
  rw [runSteps_groups_render dl groups [] hG]
  simp only [Except.bind, List.nil_append]
  simp only [List.map_cons, List.map_nil]
  unfold runSteps
  simp only [step]
  have hne : ¬ (toSegment dl (ieaText dl iea)).ID = ['G', 'S'] := by
    rw [hieaid]
    simp
  rw [if_neg hne, if_pos hieaid, hieap]
  simp only [Except.map, Except.bind]
  rfl

theorem segsNLClean_extract {doc : X12Document} (h : segsNLClean doc = true) :
    ∀ g ∈ doc.Interchange.FunctionGroups, ∀ t ∈ g.Transactions,
      ∀ s ∈ t.Segments,
        dropNL (renderSegmentText doc.Delimiters s) =
          renderSegmentText doc.Delimiters s := by
  unfold segsNLClean at h
  simp only [List.all_eq_true, decide_eq_true_eq] at h
  exact h

theorem chunksM_facts {dl : Delimiters} {groups : List FunctionGroup}
    {iea : IEA} (hG : ∀ g ∈ groups, GroupRT dl g) (hI : IEART dl iea)
    (hseg : ∀ g ∈ groups, ∀ t ∈ g.Transactions, ∀ s ∈ t.Segments,
      dropNL (renderSegmentText dl s) = renderSegmentText dl s) :
    ∀ c ∈ (groups.map (groupTexts dl)).flatten ++ [ieaText dl iea],
      dl.segmentTerminator ∉ c ∧ dropNL c = c := by
  intro c hc
  rcases List.mem_append.mp hc with h | h
  · obtain ⟨l, hl, hcl⟩ := List.mem_flatten.mp h
    obtain ⟨g, hg, hgl⟩ := List.mem_map.mp hl
    subst hgl
    obtain ⟨⟨-, -, hgterm⟩, htxns, ⟨-, -, hgeterm⟩⟩ := hG g hg
    rw [groupTexts] at hcl
    rcases List.mem_cons.mp hcl with h2 | h2
    · subst h2
      refine ⟨hgterm, ?_⟩
      apply dropNL_eq_self2 <;> rw [show (gsText dl g.Header).head? = some 'G'
        from head?_joinSep_cons] <;> simp
    · rcases List.mem_append.mp h2 with h3 | h3
      · obtain ⟨l2, hl2, hcl2⟩ := List.mem_flatten.mp h3
        obtain ⟨t, htmem, htl⟩ := List.mem_map.mp hl2
        subst htl
        obtain ⟨⟨-, -, hstterm⟩, hsegsRT, ⟨-, -, hseterm⟩⟩ := htxns t htmem
        rw [txnTexts] at hcl2
        rcases List.mem_cons.mp hcl2 with h4 | h4
        · subst h4
          have hsthead : (stText dl t.Header).head? = some 'S' := by
            unfold stText
            by_cases hic : t.Header.ImplementationConventionReference = []
            · rw [if_pos hic]
              exact head?_joinSep_cons
            · rw [if_neg hic]
              exact head?_joinSep_cons
          refine ⟨hstterm, ?_⟩
          apply dropNL_eq_self2 <;> rw [hsthead] <;> simp
        · rcases List.mem_append.mp h4 with h5 | h5
          · obtain ⟨s, hsmem, hsl⟩ := List.mem_map.mp h5
            subst hsl
            exact ⟨(hsegsRT s hsmem).2.1, hseg g hg t htmem s hsmem⟩
          · rw [List.mem_singleton.mp h5]
            refine ⟨hseterm, ?_⟩
            apply dropNL_eq_self2 <;> rw [show (seText dl t.Trailer).head? =
              some 'S' from head?_joinSep_cons] <;> simp
      · rw [List.mem_singleton.mp h3]
        refine ⟨hgeterm, ?_⟩
        apply dropNL_eq_self2 <;> rw [show (geText dl g.Trailer).head? =
          some 'G' from head?_joinSep_cons] <;> simp
  · rw [List.mem_singleton.mp h]
    refine ⟨hI.2.2, ?_⟩
    apply dropNL_eq_self2 <;> rw [show (ieaText dl iea).head? =
      some 'I' from head?_joinSep_cons] <;> simp

/-- Marshalling a decoded document (with no segment id starting in a
newline) and decoding again restores the document exactly. -/
theorem decode_marshal {r : Bool} {b : List Char} {doc : X12Document}
    (hdec : Decode r b = .ok doc) (hnl : segsNLClean doc = true) :
    Decode false (Marshaler.Marshal ⟨false⟩ doc) = .ok doc := by
  obtain ⟨dl, isa, rest, chunks, hp, ht, hb⟩ := Decode_ok_parts hdec
  obtain ⟨groups, iea, hrun, hdoceq⟩ := build_ok hb
  subst hdoceq
  obtain ⟨hchunks, -⟩ := tokenize_eq_ok ht
  have htermfree : ∀ c ∈ chunks, dl.segmentTerminator ∉ c := by
    intro c hc hmemterm
    rw [hchunks, map_dropLast_comm] at hc
    obtain ⟨p, hp2, hpe⟩ := List.mem_map.mp hc
    have hpmem : p ∈ rest.splitOn dl.segmentTerminator :=
      (List.dropLast_sublist _).subset hp2
    rw [← hpe] at hmemterm
    exact not_mem_splitOn hpmem (mem_of_mem_dropNL hmemterm)
  have hclean := runSteps_preserve dl chunks _ _ htermfree hrun
    (by intro g hg; simp at hg)
  obtain ⟨hG, hI⟩ := hclean
  have hfacts := chunksM_facts hG hI (segsNLClean_extract hnl)
  have hM : Marshaler.Marshal ⟨false⟩ (⟨⟨isa, groups, iea⟩, dl⟩ : X12Document) =
      isaText dl isa ++ dl.segmentTerminator ::
        ((((groups.map (groupTexts dl)).flatten ++ [ieaText dl iea]).map
          (fun t => t ++ [dl.segmentTerminator])).flatten) := by
    rw [Marshal_eq]
    have hfn : (fun (t : List Char) => t ++
        (⟨⟨isa, groups, iea⟩, dl⟩ : X12Document).Delimiters.segmentTerminator ::
        (if (⟨false⟩ : Marshaler).NewLines then ['\n'] else [])) =
        fun t => t ++ [dl.segmentTerminator] := funext fun t => rfl
    rw [hfn]
    show ((isaText dl isa :: ((groups.map (groupTexts dl)).flatten ++
      [ieaText dl iea])).map (fun t => t ++ [dl.segmentTerminator])).flatten = _
    rw [List.map_cons, List.flatten_cons]
    simp [List.append_assoc]
  rw [hM]
  unfold Decode
  rw [if_neg (by simp [isaText_eq])]
  rw [probe_ok_render hp]
  simp only [Except.bind]
  rw [tokenize_render dl.segmentTerminator _ (fun c hc => (hfacts c hc).1)
    (fun c hc => (hfacts c hc).2)]
  exact build_render dl isa groups iea hG hI

/-! ### Failure characterizations of the probe and the decoder -/

theorem finalize_ok_state {dl : Delimiters} {isa : ISA} {st : BState}
    {doc : X12Document} (h : finalize dl isa st = .ok doc) :
    ∃ groups iea, st = .afterIEA groups iea := by
  cases st with
  | afterIEA groups iea => exact ⟨groups, iea, rfl⟩
  | insideISA gAcc => exact absurd h (by simp [finalize])
  | insideGS gAcc gsH txnAcc => exact absurd h (by simp [finalize])
  | insideST gAcc gsH txnAcc stH segAcc => exact absurd h (by simp [finalize])

theorem decode_short {b : List Char} (hne : b ≠ []) (hlen : b.length < 106) :
    Decode false b = .error .MalformedISA := by
  unfold Decode
  rw [if_neg hne]
  have hprobe : probe false b = .error .MalformedISA := by
    rw [probe_false_eq]
    by_cases hpre : b.take 3 = ['I', 'S', 'A']
    · rw [if_neg (not_not_intro hpre)]
      unfold probeCore
      rw [if_pos]
      rw [List.length_drop]
      omega
    · rw [if_pos hpre]
  rw [hprobe]
  rfl

theorem decode_not_isa {b : List Char} (hne : b ≠ [])
    (hpre : b.take 3 ≠ ['I', 'S', 'A']) :
    Decode false b = .error .MalformedISA := by
  unfold Decode
  rw [if_neg hne]
  have hprobe : probe false b = .error .MalformedISA := by
    rw [probe_false_eq, if_pos hpre]
  rw [hprobe]
  rfl

theorem fields16_none {l : List (List Char)} (h : l.length ≠ 16) :
    fields16 l = none := by
  cases hf : fields16 l with
  | none => rfl
  | some isa =>
    have := fields16_eq_some hf
    subst this
    simp [isaFields] at h

theorem decode_isa_fields {b : List Char} (hpre : b.take 3 = ['I', 'S', 'A'])
    (hlen : 106 ≤ b.length)
    (hcnt : (((b.drop 4).take 101).splitOn (b.getD 3 ' ')).length ≠ 16) :
    Decode false b = .error .MalformedISA := by
  have hne : b ≠ [] := by
    intro he
    rw [he] at hlen
    simp at hlen
  unfold Decode
  rw [if_neg hne]
  have hdrop : (b.drop 3).drop 1 = b.drop 4 := by
    rw [List.drop_drop]
  have hhead : (b.drop 3).headD ' ' = b.getD 3 ' ' := by
    rw [List.headD_eq_head?, List.head?_drop, List.getD_eq_getD_get?,
      List.get?_eq_getElem?]
  have hprobe : probe false b = .error .MalformedISA := by
    rw [probe_false_eq, if_neg (not_not_intro hpre)]
    unfold probeCore
    rw [if_neg (by rw [List.length_drop]; omega)]
    rw [hdrop, hhead, fields16_none hcnt]
  rw [hprobe]
  rfl

theorem decode_delims {b : List Char} {doc : X12Document}
    (h : Decode false b = .ok doc) :
    106 ≤ b.length ∧
    doc.Delimiters.elementSeparator = b.getD 3 ' ' ∧
    doc.Delimiters.subElementSeparator = b.getD 104 ' ' ∧
    doc.Delimiters.segmentTerminator = b.getD 105 ' ' := by
  obtain ⟨dl, isa, rest, chunks, hp, ht, hb⟩ := Decode_ok_parts h
  obtain ⟨groups, iea, hrun, hdoceq⟩ := build_ok hb
  subst hdoceq
  have hb2 := hp
  rw [probe_false_eq] at hb2
  have hpre : b.take 3 = ['I', 'S', 'A'] := by
    by_contra hc
    rw [if_pos hc] at hb2
    exact absurd hb2 (by simp)
  rw [if_neg (not_not_intro hpre)] at hb2
  obtain ⟨hlen, hdl, -, -⟩ := probeCore_ok hb2
  rw [List.length_drop] at hlen
  have hL : 106 ≤ b.length := by omega
  refine ⟨hL, ?_, ?_, ?_⟩
  · rw [hdl]
    show (b.drop 3).headD ' ' = b.getD 3 ' '
    rw [List.headD_eq_head?, List.head?_drop, List.getD_eq_getD_get?,
      List.get?_eq_getElem?]
  · rw [hdl]
    show (((b.drop 3).drop 1).take 101).getD 100 ' ' = b.getD 104 ' '
    rw [List.drop_drop]
    rw [List.getD_eq_getD_get?, List.getD_eq_getD_get?,
      List.get?_eq_getElem?, List.get?_eq_getElem?]
    have h100 : ((b.drop (1 + 3)).take 101)[100]? = (b.drop (1 + 3))[100]? :=
      List.getElem?_take_of_lt (by omega)
    rw [h100, List.getElem?_drop]
  · rw [hdl]
    show (((b.drop 3).drop 1).drop 101).headD ' ' = b.getD 105 ' '
    rw [List.drop_drop, List.drop_drop]
    rw [List.headD_eq_head?, List.head?_drop, List.getD_eq_getD_get?,
      List.get?_eq_getElem?]

/-! ### Mutating the SE segment count -/

theorem checkEq_eq_nil {p : List Char} {i : Nat} {a b : List Char} :
    checkEq p i a b = [] ↔ a = b := by
  unfold checkEq
  by_cases h : a = b
  · simp [h]
  · simp [h]

theorem checkCount_eq_nil {p : List Char} {i : Nat} {s : List Char} {n : Nat} :
    checkCount p i s n = [] ↔ parseNat s = some n := by
  unfold checkCount
  by_cases h : parseNat s = some n
  · simp [h]
  · simp [h]

/-- Setting the SE count of the only transaction of a cleanly validating
decoded document to a value that does not denote the correct count produces
exactly the one violation of invariant six. -/
theorem validate_setSE {isa : ISA} {gs : GS} {stH : ST} {segs : List Segment}
    {se : SE} {ge : GE} {iea : IEA} {dl : Delimiters} (v : List Char)
    (hval : Validate ⟨⟨isa, [⟨gs, [⟨stH, segs, se⟩], ge⟩], iea⟩, dl⟩ = [])
    (hv : parseNat v ≠ some (2 + segs.length)) :
    Validate (setSE (⟨⟨isa, [⟨gs, [⟨stH, segs, se⟩], ge⟩], iea⟩, dl⟩ :
        X12Document) v) =
      [⟨txnPath 0 0, 6, natToChars (2 + segs.length), v⟩] := by
  unfold Validate at hval
  dsimp only at hval
  simp only [List.length_singleton] at hval
  obtain ⟨h12, hgg⟩ := List.append_eq_nil.mp hval
  obtain ⟨h1, h3⟩ := List.append_eq_nil.mp h12
  simp only [validateGroups, List.append_nil] at hgg
  unfold validateGroup at hgg
  dsimp only at hgg
  simp only [List.length_singleton] at hgg
  obtain ⟨h24, htx⟩ := List.append_eq_nil.mp hgg
  obtain ⟨h2, h4⟩ := List.append_eq_nil.mp h24
  simp only [validateTxns, List.append_nil] at htx
  unfold validateTxn at htx
  dsimp only at htx
  obtain ⟨h5, -⟩ := List.append_eq_nil.mp htx
  show Validate (⟨⟨isa, [⟨gs, [⟨stH, segs,
    (⟨v, se.TransactionSetControlNumber⟩ : SE)⟩], ge⟩], iea⟩, dl⟩ :
      X12Document) = _
  unfold Validate
  dsimp only
  simp only [List.length_singleton]
  simp only [validateGroups, List.append_nil]
  unfold validateGroup
  dsimp only
  simp only [List.length_singleton]
  simp only [validateTxns, List.append_nil]
  unfold validateTxn
  dsimp only
  have hc6 : checkCount (txnPath 0 0) 6 v (2 + segs.length) =
      [⟨txnPath 0 0, 6, natToChars (2 + segs.length), v⟩] := by
    unfold checkCount
    rw [if_neg hv]
  rw [h1, h3, h2, h4]
  show ([] : List Violation) ++ [] ++ (([] : List Violation) ++ [] ++
    (checkEq (txnPath 0 0) 5 stH.TransactionSetControlNumber
      se.TransactionSetControlNumber ++
     checkCount (txnPath 0 0) 6 v (2 + segs.length))) = _
  rw [h5, hc6]
  rfl

/-- Dropping the leading space run of a space-padded list reaches the same
suffix as dropping the leading space run of the unpadded list. -/
theorem drop_spaces_eq (k : Nat) (r : List Char) :
    (List.replicate k ' ' ++ r).drop
        ((List.replicate k ' ' ++ r).takeWhile (fun c => c == ' ')).length =
      r.drop (r.takeWhile (fun c => c == ' ')).length := by
  induction k with
  | zero => rw [List.replicate_zero, List.nil_append]
  | succ n ih =>
    rw [List.replicate_succ, List.cons_append, List.takeWhile_cons]
    show (' ' :: (List.replicate n ' ' ++ r)).drop
        (' ' :: (List.replicate n ' ' ++ r).takeWhile (fun c => c == ' ')).length = _
    rw [List.length_cons, List.drop_succ_cons]
    exact ih

/-- Modelled from the spec: in relaxed mode the probe skips any run of
spaces between the ISA tag and the first non-space byte, so padding the tag
with spaces does not change the probe result. -/
theorem probe_true_spaces (k : Nat) (r : List Char) :
    probe true ('I' :: 'S' :: 'A' :: (List.replicate k ' ' ++ r)) =
      probe true ('I' :: 'S' :: 'A' :: r) := by
  have hstep : ∀ (n : Nat) (l : List Char),
      ('I' :: 'S' :: 'A' :: l).drop (3 + n) = l.drop n := by
    intro n l
    rw [← List.drop_drop]
    rfl
  show probeCore (('I' :: 'S' :: 'A' :: (List.replicate k ' ' ++ r)).drop
      (3 + ((List.replicate k ' ' ++ r).takeWhile (fun c => c == ' ')).length)) =
    probeCore (('I' :: 'S' :: 'A' :: r).drop
      (3 + (r.takeWhile (fun c => c == ' ')).length))
  rw [hstep, hstep]
  rw [drop_spaces_eq k r]

/-- An empty token yields an element with empty value and no components, at
the matching position. -/
theorem mkElements_empty_tok (dl : Delimiters) :
    ∀ (toks : List (List Char)) (idx i : Nat), toks[i]? = some [] →
      (mkElements dl idx toks)[i]? = some ⟨posId (idx + i), [], []⟩ := by
  intro toks
  induction toks with
  | nil =>
    intro idx i h
    simp at h
  | cons t ts ih =>
    intro idx i h
    cases i with
    | zero =>
      rw [List.getElem?_cons_zero] at h
      have ht : t = [] := Option.some.inj h
      subst ht
      show (mkElement dl idx [] :: mkElements dl (idx + 1) ts)[0]? = _
      rw [List.getElem?_cons_zero]
      have hme : mkElement dl idx [] = ⟨posId idx, [], []⟩ := rfl
      rw [hme, Nat.add_zero]
    | succ n =>
      rw [List.getElem?_cons_succ] at h
      show (mkElement dl idx t :: mkElements dl (idx + 1) ts)[n + 1]? = _
      rw [List.getElem?_cons_succ]
      have harith : idx + 1 + n = idx + (n + 1) := by omega
      rw [ih (idx + 1) n h, harith]

/-! ### The claims -/

/-- C1: round-trip fidelity of the codec.  For every well-formed input
stream `b` (strict decode succeeds and `b` carries no extraneous line
breaks, as captured by `WF`), marshalling the decoded document reproduces
`b` with every newline removed; and with the NewLines marshal option, an
input that already has a line feed after every segment terminator is
reproduced exactly. -/
theorem C1_roundtrip (b : List Char) (doc : X12Document)
    (hwf : WF b = true) (hdec : Decode false b = .ok doc) :
    Marshaler.Marshal ⟨false⟩ doc = stripNewlines b ∧
    (hasNLAfterEachTerm b = true → Marshaler.Marshal ⟨true⟩ doc = b) :=
  marshal_decode hwf hdec

set_option maxRecDepth 100000 in
/-- Witness for C1 at the canonical input followed by a final newline. -/
theorem C1_roundtrip_witness :
    WF nlCanonicalInput = true ∧
    Decode false nlCanonicalInput = .ok canonicalDoc ∧
    (Marshaler.Marshal ⟨false⟩ canonicalDoc = stripNewlines nlCanonicalInput ∧
      (hasNLAfterEachTerm nlCanonicalInput = true →
        Marshaler.Marshal ⟨true⟩ canonicalDoc = nlCanonicalInput)) :=
  ⟨by decide, by decide,
   C1_roundtrip nlCanonicalInput canonicalDoc (by decide) (by decide)⟩

set_option maxRecDepth 100000 in
/-- C2: decoding the canonical eleven-segment 824 example yields exactly the
expected document: one interchange with one functional group holding one
transaction whose inner segments are BGN, N1, PER, N1, OTI in order, every
envelope field mapped by position to its named record field (the equality
with the `canonicalDoc` literal transcribed from the test file), `Validate`
returns no violations, and marshalling reproduces the input without its
newlines. -/
theorem C2_canonical_decode :
    Decode false canonicalInput = .ok canonicalDoc ∧
    Validate canonicalDoc = [] ∧
    canonicalDoc.Interchange.FunctionGroups.length = 1 ∧
    canonicalDoc.Interchange.FunctionGroups.map
      (fun g => g.Transactions.length) = [1] ∧
    canonicalDoc.Interchange.FunctionGroups.map (fun g =>
      g.Transactions.map (fun t => t.Segments.map (fun s => s.ID))) =
      [[["BGN".toList, "N1".toList, "PER".toList, "N1".toList,
         "OTI".toList]]] ∧
    canonicalDoc.Interchange.Header.ComponentElementSeparator = ">".toList ∧
    Marshaler.Marshal ⟨false⟩ canonicalDoc = stripNewlines canonicalInput :=
  by decide

set_option maxRecDepth 100000 in
/-- C3: an ISA segment lacking its sixteenth field is rejected with
MalformedISA, and the error result carries no document: concretely for the
test input whose ISA ends with the usage indicator, and generally for every
ISA-tagged input of probe length whose fixed-width field window does not
split into exactly sixteen fields. -/
theorem C3_isa_missing :
    Decode false isaMissingInput = .error .MalformedISA ∧
    ∀ (b : List Char), b.take 3 = ['I', 'S', 'A'] → 106 ≤ b.length →
      (((b.drop 4).take 101).splitOn (b.getD 3 ' ')).length ≠ 16 →
      Decode false b = .error .MalformedISA :=
  ⟨by decide, fun _ h1 h2 h3 => decode_isa_fields h1 h2 h3⟩

set_option maxRecDepth 100000 in
/-- Witness for C3 at the test input with the missing sixteenth ISA field. -/
theorem C3_isa_missing_witness :
    isaMissingInput.take 3 = ['I', 'S', 'A'] ∧
    106 ≤ isaMissingInput.length ∧
    (((isaMissingInput.drop 4).take 101).splitOn
      (isaMissingInput.getD 3 ' ')).length ≠ 16 ∧
    Decode false isaMissingInput = .error .MalformedISA :=
  ⟨by decide, by decide, by decide,
   C3_isa_missing.2 isaMissingInput (by decide) (by decide) (by decide)⟩

/-- C4 (amended): for every document produced by a successful Decode whose
generic segments are free of the leading newlines that blank lines leave
behind (`segsNLClean`), decoding the marshalled bytes succeeds and returns
the same document. -/
theorem C4_decode_marshal (r : Bool) (b : List Char) (doc : X12Document)
    (hdec : Decode r b = .ok doc) (hclean : segsNLClean doc = true) :
    Decode false (Marshaler.Marshal ⟨false⟩ doc) = .ok doc :=
  decode_marshal hdec hclean

set_option maxRecDepth 100000 in
/-- Witness for C4 at the canonical input. -/
theorem C4_decode_marshal_witness :
    Decode false canonicalInput = .ok canonicalDoc ∧
    segsNLClean canonicalDoc = true ∧
    Decode false (Marshaler.Marshal ⟨false⟩ canonicalDoc) = .ok canonicalDoc :=
  ⟨by decide, by decide,
   C4_decode_marshal false canonicalInput canonicalDoc (by decide) (by decide)⟩

set_option maxRecDepth 100000 in
/-- C4 counterexample: an input with a blank line after a segment terminator
decodes successfully, but its document does not survive marshal-then-decode:
the second newline ends up inside a segment id, and re-decoding the
marshalled bytes trims it away. -/
theorem C4_counterexample :
    Decode false doubleNLInput = .ok doubleNLDoc ∧
    Decode false (Marshaler.Marshal ⟨false⟩ doubleNLDoc) ≠ .ok doubleNLDoc :=
  by decide

/-- C5 (amended): strict Decode fails with MalformedISA on every nonempty
input shorter than 106 bytes and on every nonempty input not starting with
the literal ISA; and whenever it succeeds, the document stores the element
separator read from byte 3, the sub-element separator from byte 104, and the
segment terminator from byte 105. -/
theorem C5_probe (b : List Char) (doc : X12Document) :
    (b ≠ [] → b.length < 106 → Decode false b = .error .MalformedISA) ∧
    (b ≠ [] → b.take 3 ≠ ['I', 'S', 'A'] →
      Decode false b = .error .MalformedISA) ∧
    (Decode false b = .ok doc →
      106 ≤ b.length ∧
      doc.Delimiters.elementSeparator = b.getD 3 ' ' ∧
      doc.Delimiters.subElementSeparator = b.getD 104 ' ' ∧
      doc.Delimiters.segmentTerminator = b.getD 105 ' ') :=
  ⟨fun h1 h2 => decode_short h1 h2,
   fun h1 h2 => decode_not_isa h1 h2,
   fun h => decode_delims h⟩

set_option maxRecDepth 100000 in
/-- Witness for C5 at the canonical input: the probed delimiters are the
bytes at positions 3, 104 and 105. -/
theorem C5_probe_witness :
    Decode false canonicalInput = .ok canonicalDoc ∧
    (106 ≤ canonicalInput.length ∧
      canonicalDoc.Delimiters.elementSeparator = canonicalInput.getD 3 ' ' ∧
      canonicalDoc.Delimiters.subElementSeparator =
        canonicalInput.getD 104 ' ' ∧
      canonicalDoc.Delimiters.segmentTerminator =
        canonicalInput.getD 105 ' ') :=
  ⟨by decide, (C5_probe canonicalInput canonicalDoc).2.2 (by decide)⟩

set_option maxRecDepth 100000 in
/-- C5 counterexample: the claim as stated is false on both edges.  The
canonical input succeeds although the three bytes following ISA are not all
the element separator (bytes 4 and 5 are digits), and the empty input fails
with Empty, not MalformedISA. -/
theorem C5_counterexample :
    (canonicalInput.getD 4 ' ' ≠ canonicalInput.getD 3 ' ' ∧
     canonicalInput.getD 5 ' ' ≠ canonicalInput.getD 3 ' ' ∧
     Decode false canonicalInput = .ok canonicalDoc) ∧
    (Decode false [] = .error .Empty ∧
     Decode false [] ≠ .error .MalformedISA) :=
  by decide

set_option maxRecDepth 100000 in
/-- C6: an empty field between two consecutive element separators yields an
element with empty value and no components at its position (generally over
the tokenized fields of any segment); concretely the OTI chunk's positions
04 and 05 parse to empty values, its rendered text reproduces the chunk with
both empty fields, and the canonical document round-trips through
marshalling. -/
theorem C6_empty_elements :
    (∀ (dl : Delimiters) (toks : List (List Char)) (i : Nat),
      toks[i]? = some [] →
      (mkElements dl 1 toks)[i]? = some ⟨posId (1 + i), [], []⟩) ∧
    values (toSegment canonicalDoc.Delimiters otiChunk) =
      ["TA".toList, "TN".toList, "NA".toList, [], [],
       "20020709".toList, "0902".toList, "2".toList, "0001".toList,
       "834".toList, "005010X220A1".toList] ∧
    renderSegmentText canonicalDoc.Delimiters
      (toSegment canonicalDoc.Delimiters otiChunk) = otiChunk ∧
    Decode false (Marshaler.Marshal ⟨false⟩ canonicalDoc) = .ok canonicalDoc :=
  ⟨fun dl toks i h => mkElements_empty_tok dl toks 1 i h,
   by decide, by decide, by decide⟩

/-- Witness for C6 on a field list with an empty token at index 1. -/
theorem C6_empty_elements_witness :
    (["NA".toList, [], []] : List (List Char))[1]? = some [] ∧
    (mkElements tinyDl 1 ["NA".toList, [], []])[1]? =
      some ⟨posId (1 + 1), [], []⟩ :=
  ⟨by decide, C6_empty_elements.1 tinyDl ["NA".toList, [], []] 1 (by decide)⟩

set_option maxRecDepth 100000 in
/-- C7 (amended): for a document with a single functional group holding a
single transaction that Validate accepts, overwriting the SE segment count
with any text that does not read as 2 plus the inner segment count makes
Validate report exactly the one invariant-6 violation, carrying the expected
and observed counts; and Decode still succeeds on the concrete input whose
SE count was changed from 7 to 9, which then validates to that single
violation. -/
theorem C7_se_mutation (isa : ISA) (gs : GS) (stH : ST) (segs : List Segment)
    (se : SE) (ge : GE) (iea : IEA) (dl : Delimiters) (v : List Char)
    (hval : Validate ⟨⟨isa, [⟨gs, [⟨stH, segs, se⟩], ge⟩], iea⟩, dl⟩ = [])
    (hv : parseNat v ≠ some (2 + segs.length)) :
    Validate (setSE (⟨⟨isa, [⟨gs, [⟨stH, segs, se⟩], ge⟩], iea⟩, dl⟩ :
        X12Document) v) =
      [⟨txnPath 0 0, 6, natToChars (2 + segs.length), v⟩] ∧
    (Decode false s3Input = .ok s3Doc ∧
     Validate s3Doc = [⟨txnPath 0 0, 6, "7".toList, "9".toList⟩]) :=
  ⟨validate_setSE v hval hv, by decide, by decide⟩

set_option maxRecDepth 100000 in
/-- Witness for C7 at the minimal valid document, mutated count 9. -/
theorem C7_se_mutation_witness :
    Validate tinyDoc = [] ∧
    parseNat "9".toList ≠ some (2 + ([] : List Segment).length) ∧
    (Validate (setSE tinyDoc "9".toList) =
        [⟨txnPath 0 0, 6, natToChars (2 + ([] : List Segment).length),
          "9".toList⟩] ∧
      (Decode false s3Input = .ok s3Doc ∧
       Validate s3Doc = [⟨txnPath 0 0, 6, "7".toList, "9".toList⟩])) :=
  ⟨by decide, by decide,
   C7_se_mutation tinyISA tinyGS tinyST [] tinySE tinyGE tinyIEA tinyDl
     "9".toList (by decide) (by decide)⟩

set_option maxRecDepth 100000 in
/-- C7 counterexample: the claim quantifies over every decoded document, but
a decoded document that already carries another violation (here a mismatched
interchange control number) yields two violations after the SE mutation, not
exactly one. -/
theorem C7_counterexample :
    Decode false s4Input = .ok s4Doc ∧
    parseNat "9".toList ≠
      some (2 + (s4Doc.Interchange.FunctionGroups.map (fun g =>
        g.Transactions.map (fun t => t.Segments.length))).flatten.headD 0) ∧
    (Validate (setSE s4Doc "9".toList)).length ≠ 1 :=
  by decide

set_option maxRecDepth 100000 in
/-- C8: relaxed segment-id whitespace.  The relaxed probe skips any run of
spaces between the ISA tag and the first non-space byte (so the padded and
unpadded streams probe alike, the first non-space byte acting as the element
separator); on the concrete spaced input, strict Decode fails with
MalformedISA while relaxed Decode succeeds with the canonical document, and
marshalling reproduces the input modulo the collapse of the spaces after the
ISA tag and the newlines. -/
theorem C8_relaxed_whitespace :
    (∀ (k : Nat) (r : List Char),
      probe true ('I' :: 'S' :: 'A' :: (List.replicate k ' ' ++ r)) =
        probe true ('I' :: 'S' :: 'A' :: r)) ∧
    Decode false spacedInput = .error .MalformedISA ∧
    Decode true spacedInput = .ok canonicalDoc ∧
    collapseISASpace spacedInput = canonicalInput ∧
    Marshaler.Marshal ⟨false⟩ canonicalDoc =
      stripNewlines (collapseISASpace spacedInput) :=
  ⟨probe_true_spaces, by decide, by decide, by decide, by decide⟩

/-- C9: the empty input fails with the Empty error for either option, and a
successful end of stream is possible only in the AfterIEA builder state:
whenever finalize accepts, the final state was afterIEA. -/
theorem C9_empty_and_eof :
    (∀ (r : Bool), Decode r [] = .error .Empty) ∧
    (∀ (dl : Delimiters) (isa : ISA) (st : BState) (doc : X12Document),
      finalize dl isa st = .ok doc →
      ∃ groups iea, st = .afterIEA groups iea) :=
  ⟨fun _ => rfl, fun _ _ _ _ h => finalize_ok_state h⟩

/-- Witness for C9: finalize accepts the afterIEA state of the minimal
envelope. -/
theorem C9_empty_and_eof_witness :
    finalize tinyDl tinyISA (BState.afterIEA [] tinyIEA) =
      .ok ⟨⟨tinyISA, [], tinyIEA⟩, tinyDl⟩ ∧
    ∃ groups iea,
      BState.afterIEA ([] : List FunctionGroup) tinyIEA =
        BState.afterIEA groups iea :=
  ⟨by decide,
   C9_empty_and_eof.2 tinyDl tinyISA (BState.afterIEA [] tinyIEA)
     ⟨⟨tinyISA, [], tinyIEA⟩, tinyDl⟩ (by decide)⟩

/-- C10: Decode is deterministic.  It is a pure function of the option and
the input bytes: equal options on equal streams give equal results, with no
dependence on hidden or shared state. -/
theorem C10_deterministic (r1 r2 : Bool) (b1 b2 : List Char)
    (hr : r1 = r2) (hb : b1 = b2) : Decode r1 b1 = Decode r2 b2 := by
  rw [hr, hb]

/-- Witness for C10 at the canonical input. -/
theorem C10_deterministic_witness :
    (false = false) ∧ canonicalInput = canonicalInput ∧
    Decode false canonicalInput = Decode false canonicalInput :=
  ⟨rfl, rfl,
   C10_deterministic false false canonicalInput canonicalInput rfl rfl⟩

end X12
